import Mathlib

/-!
Verification of the DAG scheduling engine and pipeline orchestrator of the
`full-self-coding` repository (HCI research pipeline).

The TypeScript sources are shallowly embedded:
* `PhaseNode` / `PhaseStatus` mirror `phase.ts`.
* The `DAG` class (`dag.ts`) keeps its nodes in an insertion-ordered
  `Map<string, PhaseNode>`; we model that map as a `List PhaseNode` whose
  entries carry their own key (`id`), with `Map.get` as first match and
  `Map.set` as in-place replace-or-append.
* The source stores child `PhaseNode` objects on a virtual parent, but every
  consumer of `children` reads only the child ids and then looks the child up
  in the live map; we therefore store the child id list.
* `Date.now()` is passed in as an explicit `now : Nat` argument.
* TypeScript `throw` is modelled with `Except`; where the source mutates
  shared state before throwing, the error value carries the mutated state.
-/

namespace FSC

/-- `PhaseStatus` from `phase.ts`. -/
inductive PhaseStatus where
  | pending
  | running
  | completed
  | failed
  | skipped
deriving DecidableEq, Repr

/-- `PhaseNode` from `phase.ts`.  The string-enum field `type` is kept as the
underlying string; `children` stores the ids of the attached child nodes (see
the header comment). -/
structure PhaseNode where
  id : String
  type : String := ""
  title : String := ""
  description : String := ""
  dependsOn : List String := []
  status : PhaseStatus := .pending
  outputArtifacts : List String := []
  inputArtifacts : List String := []
  startedAt : Option Nat := none
  completedAt : Option Nat := none
  error : Option String := none
  children : Option (List String) := none
deriving DecidableEq, Repr

/-- The `DAG`'s node map (`Map<string, PhaseNode>` in insertion order). -/
abbrev DagState := List PhaseNode

/-- `this.nodes.get(id)` : first entry with the given id. -/
def getNode (g : DagState) (nodeId : String) : Option PhaseNode :=
  g.find? (fun n => n.id == nodeId)

/-- `this.nodes.set(n.id, n)` : replace in place if the key exists, else append. -/
def mapSet (g : DagState) (n : PhaseNode) : DagState :=
  if g.any (fun m => m.id == n.id) then
    g.map (fun m => if m.id == n.id then n else m)
  else
    g ++ [n]

/-- Replace the entry stored under key `nodeId` (mutation of a looked-up node). -/
def setNode (g : DagState) (nodeId : String) (n : PhaseNode) : DagState :=
  g.map (fun m => if m.id == nodeId then n else m)

/-- `new DAG(nodes)` : insert every seed node into the map. -/
def mkDAG (nodes : List PhaseNode) : DagState :=
  nodes.foldl mapSet []

/-- The dependency check inside `getReadyNodes`:
`dep && (dep.status === COMPLETED || dep.status === SKIPPED)`. -/
def depSatisfied (g : DagState) (depId : String) : Bool :=
  match getNode g depId with
  | some dep => dep.status == .completed || dep.status == .skipped
  | none => false

/-- `DAG.getReadyNodes` : pending nodes all of whose dependencies are
completed or skipped. -/
def getReadyNodes (g : DagState) : List PhaseNode :=
  g.filter (fun n => n.status == .pending && n.dependsOn.all (depSatisfied g))

/-- `DAG.getAllNodes`. -/
def getAllNodes (g : DagState) : List PhaseNode := g

/-- `DAG.isComplete` : no node is pending or running. -/
def isComplete (g : DagState) : Bool :=
  g.all (fun n => !(n.status == .pending || n.status == .running))

/-- `DAG.isStuck` : not complete, no ready nodes, nothing running. -/
def isStuck (g : DagState) : Bool :=
  if isComplete g then false
  else
    (getReadyNodes g).length == 0 &&
    (g.filter (fun n => n.status == .running)).length == 0

/-- Result shape of `DAG.getSummary`. -/
structure Summary where
  total : Nat
  pending : Nat
  running : Nat
  completed : Nat
  failed : Nat
  skipped : Nat
deriving DecidableEq, Repr

/-- The `switch` body of the `getSummary` loop. -/
def summaryStep (s : Summary) (n : PhaseNode) : Summary :=
  match n.status with
  | .pending => { s with pending := s.pending + 1 }
  | .running => { s with running := s.running + 1 }
  | .completed => { s with completed := s.completed + 1 }
  | .failed => { s with failed := s.failed + 1 }
  | .skipped => { s with skipped := s.skipped + 1 }

/-- `DAG.getSummary` : one counter per status, incremented in a single pass. -/
def getSummary (g : DagState) : Summary :=
  g.foldl summaryStep
    { total := g.length, pending := 0, running := 0, completed := 0,
      failed := 0, skipped := 0 }

/-- Child lookup used by `updateParentStatus`: the child exists in the live map
and is completed or skipped. -/
def childDone (g : DagState) (cid : String) : Bool :=
  match getNode g cid with
  | some c => c.status == .completed || c.status == .skipped
  | none => false

/-- Child lookup used by `updateParentStatus`: the child exists and failed. -/
def childFailed (g : DagState) (cid : String) : Bool :=
  match getNode g cid with
  | some c => c.status == .failed
  | none => false

/-- Child lookup used by `updateParentStatus`: the child exists and is still
pending or running. -/
def childActive (g : DagState) (cid : String) : Bool :=
  match getNode g cid with
  | some c => c.status == .pending || c.status == .running
  | none => false

/-- The body of the `updateParentStatus` loop for one candidate parent `n`,
reading child statuses from the current map `g`. -/
def updateParentOne (childId : String) (now : Nat) (g : DagState) (n : PhaseNode) : PhaseNode :=
  match n.children with
  | none => n
  | some cs =>
    if cs.contains childId then
      if cs.all (childDone g) then
        { n with status := .completed, completedAt := some now }
      else if cs.any (childFailed g) && !(cs.any (childActive g)) then
        { n with status := .failed, completedAt := some now,
                 error := some "One or more child nodes failed" }
      else n
    else n

/-- `DAG.updateParentStatus(childId)` : sweep over all map entries in order;
every virtual parent whose child list contains `childId` has its status
re-derived from the (live, already partially updated) map. -/
def updateParentStatus (g : DagState) (childId : String) (now : Nat) : DagState :=
  (g.map (fun n => n.id)).foldl
    (fun acc nid =>
      match getNode acc nid with
      | none => acc
      | some n => setNode acc nid (updateParentOne childId now acc n))
    g

/-- The direct field updates of `DAG.updateStatus` (before the parent sweep).
`if (error)` in JS is false for the empty string. -/
def setStatusFields (n : PhaseNode) (status : PhaseStatus) (error : Option String)
    (now : Nat) : PhaseNode :=
  let n1 := { n with status := status }
  let n2 := if status == .running then { n1 with startedAt := some now } else n1
  let n3 :=
    if status == .completed || status == .failed || status == .skipped then
      { n2 with completedAt := some now }
    else n2
  match error with
  | some e => if e == "" then n3 else { n3 with error := some e }
  | none => n3

/-- `DAG.updateStatus` : throws when the node is unknown, otherwise updates the
node and re-derives every containing virtual parent. -/
def updateStatus (g : DagState) (nodeId : String) (status : PhaseStatus)
    (error : Option String) (now : Nat) : Except String DagState :=
  match getNode g nodeId with
  | none => .error ("DAG: node \"" ++ nodeId ++ "\" not found")
  | some n =>
    let g1 := setNode g nodeId (setStatusFields n status error now)
    .ok (updateParentStatus g1 nodeId now)

/-- `DAG.addNodes`. -/
def addNodes (g : DagState) (newNodes : List PhaseNode) : DagState :=
  newNodes.foldl mapSet g

/-! ### `DAG.validate` and cycle detection -/

/-- The dangling-reference messages collected by the first loop of
`DAG.validate`, in iteration order. -/
def missingDepErrors (g : DagState) : List String :=
  g.flatMap (fun n =>
    (n.dependsOn.filter (fun d => !(g.any (fun m => m.id == d)))).map
      (fun d => "Node \"" ++ n.id ++ "\" depends on non-existent node \"" ++ d ++ "\""))

/-- The no-root check of `DAG.validate`. -/
def rootErrors (g : DagState) : List String :=
  if (g.filter (fun n => n.dependsOn.isEmpty)).length == 0 && decide (0 < g.length) then
    ["DAG has no root nodes (all nodes have dependencies)"]
  else []

/-- The cycle message built by `detectCycle`'s DFS. -/
def cycleMsg (nodeId : String) : String :=
  "DAG contains a cycle involving node \"" ++ nodeId ++ "\""

/-- The dependency list the DFS follows out of `nodeId` (empty when the id is
not in the map, as in the source's `if (node)` guard). -/
def depsOf (g : DagState) (nodeId : String) : List String :=
  match getNode g nodeId with
  | some n => n.dependsOn
  | none => []

/-- The recursive `dfs` of `DAG.detectCycle`, with three-state colouring
(`visited` = black, `visiting` = grey).  `.inl x` is a call `dfs(x)`;
`.inr ds` is the `for (const depId of node.dependsOn)` loop with `ds` still
to process, threading the black set and propagating the first non-null
result.  The source recursion always terminates because the grey stack grows
at each nesting level; the embedding makes that explicit with a structural
`fuel` counter consumed at every step and returns `none` on exhaustion,
which `dfsGo_no_exhaustion` below proves unreachable for the fuel supplied by
`detectCycle`.  The payload is `(cycle message or null, black set)`. -/
def dfsGo (g : DagState) : Nat → String ⊕ List String → List String → List String →
    Option (Option String × List String)
  | 0, _, _, _ => none
  | fuel + 1, .inl nodeId, visited, visiting =>
    if visited.contains nodeId then some (none, visited)
    else if visiting.contains nodeId then some (some (cycleMsg nodeId), visited)
    else
      match dfsGo g fuel (.inr (depsOf g nodeId)) visited (nodeId :: visiting) with
      | none => none
      | some (some e, v) => some (some e, v)
      | some (none, v) => some (none, nodeId :: v)
  | _ + 1, .inr [], visited, _ => some (none, visited)
  | fuel + 1, .inr (d :: ds), visited, visiting =>
    match dfsGo g fuel (.inl d) visited visiting with
    | none => none
    | some (some e, v) => some (some e, v)
    | some (none, v) => dfsGo g fuel (.inr ds) v visiting

/-- The outer `for (const nodeId of this.nodes.keys())` loop of `detectCycle`,
returning the first non-null DFS result; the black set persists across
iterations. -/
def detectCycleAux (g : DagState) (fuel : Nat) :
    List String → List String → Option (Option String)
  | [], _ => some none
  | nid :: rest, visited =>
    match dfsGo g fuel (.inl nid) visited [] with
    | none => none
    | some (some e, _) => some (some e)
    | some (none, v) => detectCycleAux g fuel rest v

/-- Total number of dependency edges. -/
def depsBound (g : DagState) : Nat := (g.map (fun n => n.dependsOn.length)).sum

/-- Fuel that strictly dominates the DFS potential (proved sufficient by
`dfsGo_no_exhaustion` and `dagFuel_gt`). -/
def dagFuel (g : DagState) : Nat :=
  (depsBound g + 2) * (g.length + depsBound g) + 1

/-- `DAG.detectCycle`.  The fallback `none` on fuel exhaustion is unreachable
(`detectCycle_no_exhaustion`). -/
def detectCycle (g : DagState) : Option String :=
  match detectCycleAux g (dagFuel g) (g.map (fun n => n.id)) [] with
  | some r => r
  | none => none

/-- `DAG.validate` : dangling references, then the root check, then the cycle
check. -/
def validate (g : DagState) : List String :=
  missingDepErrors g ++ rootErrors g ++
    (match detectCycle g with
     | some e => [e]
     | none => [])

/-! ### `DAG.expandNode` -/

/-- The dependency rewrite applied to every node other than the parent:
an edge to `parentId` is redirected to the aggregation child. -/
def substDep (parentId aggId d : String) : String :=
  if d == parentId then aggId else d

/-- `DAG.expandNode`.  The source mutates the parent and inserts the children
before reading `children[children.length - 1]`; with an empty child list that
read yields `undefined` and the later `aggregationNode.id` access throws a
`TypeError` — but only when the rewrite loop actually reaches a dependency on
`parentId`.  The error value carries the state as mutated up to the throw
(nothing is rolled back). -/
def expandNode (g : DagState) (parentId : String) (children : List PhaseNode)
    (now : Nat) : Except (String × DagState) DagState :=
  match getNode g parentId with
  | none =>
    .error ("DAG: cannot expand non-existent node \"" ++ parentId ++ "\"", g)
  | some parent =>
    let parent1 := { parent with
      children := some (children.map (fun c => c.id)),
      status := .running,
      startedAt := some now }
    let g1 := setNode g parentId parent1
    let g2 := children.foldl mapSet g1
    match children.getLast? with
    | some agg =>
      .ok (g2.map (fun m =>
        if m.id == parentId then m
        else { m with dependsOn := m.dependsOn.map (substDep parentId agg.id) }))
    | none =>
      if g2.any (fun m => !(m.id == parentId) && m.dependsOn.any (fun d => d == parentId)) then
        .error ("TypeError: Cannot read properties of undefined (reading 'id')", g2)
      else
        .ok g2

/-! ### Orchestrator (`pipelineOrchestrator.ts`) -/

/-- `PipelineMode` from `hciConfig.ts` (`SIMULATED = 'A'`, `REAL_DATA = 'B'`). -/
inductive PipelineMode where
  | simulated
  | realData
deriving DecidableEq, Repr

/-- The `RUNNING → PENDING` reset that `PipelineOrchestrator.resume` applies to
the loaded snapshot's node list before re-entering the execution loop. -/
def resumeReset (nodes : List PhaseNode) : List PhaseNode :=
  nodes.map (fun n =>
    if n.status == .running then { n with status := .pending, startedAt := none }
    else n)

/-- The message of the error thrown by `executionLoop` when the DAG is stuck. -/
def stuckMessage (s : Summary) : String :=
  "Pipeline stuck: " ++ toString s.pending ++ " pending, " ++
    toString s.failed ++ " failed, " ++ toString s.running ++
    " running. No nodes are ready to execute."

/-- The stuck check at the top of each `executionLoop` iteration: when
`isStuck()` the loop throws an `Error` built from the summary; otherwise it
proceeds (`none`). -/
def stuckCheck (g : DagState) : Option String :=
  if isStuck g then some (stuckMessage (getSummary g)) else none

/-- One trigger step of `PipelineOrchestrator.maybeExpandDAG` for the node id
`nid` (taken from the pre-call snapshot of the node list), acting on the live
state `g`.  `pc` stands for the persona nodes produced by
`PersonaEngine.generatePersonaNodes` and `sc` for the section nodes built by
`expandSynthesizePhase`; both are opaque to the trigger logic.  The returned
id list extends `fired` with the parents expanded by this step; an
`expandNode` throw aborts the sweep (`Except.error`). -/
def expandTick (mode : PipelineMode) (pc sc : List PhaseNode) (now : Nat)
    (g : DagState) (fired : List String) (nid : String) :
    Except (String × DagState) (DagState × List String) :=
  match getNode g nid with
  | none => .ok (g, fired)
  | some n =>
    if n.status == .completed then
      let afterCollect : Except (String × DagState) (DagState × List String) :=
        if nid == "design" && mode == .simulated then
          match getNode g "collect" with
          | some cn =>
            if cn.status == .pending then
              match expandNode g "collect" pc now with
              | .ok g' => .ok (g', fired ++ ["collect"])
              | .error e => .error e
            else .ok (g, fired)
          | none => .ok (g, fired)
        else .ok (g, fired)
      match afterCollect with
      | .error e => .error e
      | .ok (g1, fired1) =>
        if nid == "analyze" || nid == "analyze/compile" then
          match getNode g1 "synthesize" with
          | some sn =>
            if sn.status == .pending then
              match expandNode g1 "synthesize" sc now with
              | .ok g' => .ok (g', fired1 ++ ["synthesize"])
              | .error e => .error e
            else .ok (g1, fired1)
          | none => .ok (g1, fired1)
        else .ok (g1, fired1)
    else .ok (g, fired)

/-- The loop of `maybeExpandDAG` over the snapshot id list. -/
def expandSweep (mode : PipelineMode) (pc sc : List PhaseNode) (now : Nat) :
    List String → DagState → List String →
    Except (String × DagState) (DagState × List String)
  | [], g, fired => .ok (g, fired)
  | nid :: rest, g, fired =>
    match expandTick mode pc sc now g fired nid with
    | .error e => .error e
    | .ok (g', fired') => expandSweep mode pc sc now rest g' fired'

/-- `PipelineOrchestrator.maybeExpandDAG` : iterate over a snapshot of the
current node list, firing the COLLECT and SYNTHESIZE expansions for completed
trigger nodes whose target phase is still pending. -/
def maybeExpandDAG (mode : PipelineMode) (pc sc : List PhaseNode) (now : Nat)
    (g : DagState) : Except (String × DagState) (DagState × List String) :=
  expandSweep mode pc sc now (g.map (fun n => n.id)) g []

/-! ### Specification-side notions (dependency relation, derived status) -/

/-- `Edge g a b` : the node stored under id `a` lists `b` among its
dependencies.  (The map holds exactly one binding per id; lookup is the
first match.) -/
def Edge (g : DagState) (a b : String) : Prop :=
  ∃ n, getNode g a = some n ∧ b ∈ n.dependsOn

/-- Non-empty dependency chains. `Reaches g a b` : `b` is reachable from `a`
by following at least one dependency edge. -/
inductive Reaches (g : DagState) : String → String → Prop where
  | single {a b : String} : Edge g a b → Reaches g a b
  | head {a b c : String} : Edge g a b → Reaches g b c → Reaches g a c

/-- `a` lies on a dependency cycle. -/
def OnCycle (g : DagState) (a : String) : Prop := Reaches g a a

/-- The virtual-parent status rule as the specification states it: Completed
iff every child is Completed or Skipped; Failed iff at least one child is
Failed and no child remains Pending or Running; otherwise Running. -/
def derivedStatus (g : DagState) (cs : List String) : PhaseStatus :=
  if cs.all (childDone g) then .completed
  else if cs.any (childFailed g) && !(cs.any (childActive g)) then .failed
  else .running

/-! ### Persistence (`WorkspaceManager.savePipelineState` / `loadPipelineState`)

`savePipelineState` stamps `state.updatedAt = Date.now()` and writes
`JSON.stringify(state)` to `pipeline.json`; `loadPipelineState` reads the file
and returns `JSON.parse(content)` (or `null` when the read fails).  The file
content is modelled as the JSON document tree — `JSON.parse ∘ JSON.stringify`
being the identity on JSON-safe values is a property of the JavaScript
runtime, while what belongs to this repository is that the state is serialised
as a single document from which the node and artifact collections are
recovered unchanged (in particular, `undefined` optional fields are dropped by
`JSON.stringify` and resurface as absent fields). -/

/-- `Artifact` from `artifact.ts` (string-enum fields kept as strings). -/
structure Artifact where
  id : String
  type : String := ""
  format : String := ""
  path : String := ""
  producedBy : String := ""
  createdAt : Option Nat := none
deriving DecidableEq, Repr

/-- `PipelineState` from `pipelineState.ts`. -/
structure PipelineState where
  projectId : String
  mode : String := "A"
  inputType : String := "topic"
  createdAt : Nat := 0
  updatedAt : Nat := 0
  nodes : List PhaseNode := []
  artifacts : List Artifact := []
deriving DecidableEq, Repr

/-- JSON document tree (numbers restricted to the naturals actually stored:
`Date.now()` timestamps). -/
inductive Json where
  | null
  | str (s : String)
  | num (n : Nat)
  | arr (xs : List Json)
  | obj (fields : List (String × Json))
deriving Repr

/-- Serialisation of the `PhaseStatus` string enum. -/
def statusToString : PhaseStatus → String
  | .pending => "pending"
  | .running => "running"
  | .completed => "completed"
  | .failed => "failed"
  | .skipped => "skipped"

/-- Parse of the `PhaseStatus` string enum. -/
def statusOfString (s : String) : Option PhaseStatus :=
  if s == "pending" then some .pending
  else if s == "running" then some .running
  else if s == "completed" then some .completed
  else if s == "failed" then some .failed
  else if s == "skipped" then some .skipped
  else none

/-- A field that `JSON.stringify` omits when the value is `undefined`. -/
def optField (name : String) (v : Option Json) : List (String × Json) :=
  match v with
  | some j => [(name, j)]
  | none => []

/-- `JSON.stringify` of one `PhaseNode`. -/
def encodeNode (n : PhaseNode) : Json :=
  .obj ([("id", .str n.id), ("type", .str n.type), ("title", .str n.title),
         ("description", .str n.description),
         ("dependsOn", .arr (n.dependsOn.map .str)),
         ("status", .str (statusToString n.status)),
         ("outputArtifacts", .arr (n.outputArtifacts.map .str)),
         ("inputArtifacts", .arr (n.inputArtifacts.map .str))]
        ++ optField "startedAt" (n.startedAt.map .num)
        ++ optField "completedAt" (n.completedAt.map .num)
        ++ optField "error" (n.error.map .str)
        ++ optField "children" (n.children.map (fun cs => .arr (cs.map .str))))

/-- `JSON.stringify` of one `Artifact`. -/
def encodeArtifact (a : Artifact) : Json :=
  .obj ([("id", .str a.id), ("type", .str a.type), ("format", .str a.format),
         ("path", .str a.path), ("producedBy", .str a.producedBy)]
        ++ optField "createdAt" (a.createdAt.map .num))

/-- `JSON.stringify` of the whole `PipelineState`. -/
def encodeState (s : PipelineState) : Json :=
  .obj [("projectId", .str s.projectId), ("mode", .str s.mode),
        ("inputType", .str s.inputType), ("createdAt", .num s.createdAt),
        ("updatedAt", .num s.updatedAt),
        ("nodes", .arr (s.nodes.map encodeNode)),
        ("artifacts", .arr (s.artifacts.map encodeArtifact))]

/-- Object field lookup (first match, like JS property access on parsed JSON). -/
def getField (fields : List (String × Json)) (name : String) : Option Json :=
  (fields.find? (fun f => f.1 == name)).map (fun f => f.2)

/-- Read a JSON string. -/
def asStr : Json → Option String
  | .str s => some s
  | _ => none

/-- Read a JSON number. -/
def asNum : Json → Option Nat
  | .num n => some n
  | _ => none

/-- Element-wise decoding of a JSON array (fails on the first bad element). -/
def optMapM {α : Type} (f : Json → Option α) : List Json → Option (List α)
  | [] => some []
  | j :: js =>
    match f j with
    | none => none
    | some a =>
      match optMapM f js with
      | none => none
      | some as => some (a :: as)

/-- Read a JSON array of strings. -/
def asStrList : Json → Option (List String)
  | .arr xs => optMapM asStr xs
  | _ => none

/-- Reconstruction of one `PhaseNode` from its parsed JSON. -/
def decodeNode : Json → Option PhaseNode
  | .obj fs => do
    let id ← (getField fs "id").bind asStr
    let ty ← (getField fs "type").bind asStr
    let title ← (getField fs "title").bind asStr
    let descr ← (getField fs "description").bind asStr
    let deps ← (getField fs "dependsOn").bind asStrList
    let status ← ((getField fs "status").bind asStr).bind statusOfString
    let outA ← (getField fs "outputArtifacts").bind asStrList
    let inA ← (getField fs "inputArtifacts").bind asStrList
    some { id := id, type := ty, title := title, description := descr,
           dependsOn := deps, status := status, outputArtifacts := outA,
           inputArtifacts := inA,
           startedAt := (getField fs "startedAt").bind asNum,
           completedAt := (getField fs "completedAt").bind asNum,
           error := (getField fs "error").bind asStr,
           children := (getField fs "children").bind asStrList }
  | _ => none

/-- Reconstruction of one `Artifact` from its parsed JSON. -/
def decodeArtifact : Json → Option Artifact
  | .obj fs => do
    let id ← (getField fs "id").bind asStr
    let ty ← (getField fs "type").bind asStr
    let fmt ← (getField fs "format").bind asStr
    let p ← (getField fs "path").bind asStr
    let pb ← (getField fs "producedBy").bind asStr
    some { id := id, type := ty, format := fmt, path := p, producedBy := pb,
           createdAt := (getField fs "createdAt").bind asNum }
  | _ => none

/-- Reconstruction of the whole `PipelineState` from its parsed JSON. -/
def decodeState : Json → Option PipelineState
  | .obj fs => do
    let pid ← (getField fs "projectId").bind asStr
    let mode ← (getField fs "mode").bind asStr
    let it ← (getField fs "inputType").bind asStr
    let ca ← (getField fs "createdAt").bind asNum
    let ua ← (getField fs "updatedAt").bind asNum
    let nodesJson ← getField fs "nodes"
    let nodes ← match nodesJson with
      | .arr xs => optMapM decodeNode xs
      | _ => none
    let artsJson ← getField fs "artifacts"
    let arts ← match artsJson with
      | .arr xs => optMapM decodeArtifact xs
      | _ => none
    some { projectId := pid, mode := mode, inputType := it, createdAt := ca,
           updatedAt := ua, nodes := nodes, artifacts := arts }
  | _ => none

/-- `WorkspaceManager.savePipelineState` : stamp `updatedAt` and write the
serialised state as the content of `pipeline.json`. -/
def savePipelineState (state : PipelineState) (now : Nat) : Json :=
  encodeState { state with updatedAt := now }

/-- `WorkspaceManager.loadPipelineState` : `null` when the file is missing,
otherwise the parsed document. -/
def loadPipelineState (file : Option Json) : Option PipelineState :=
  match file with
  | none => none
  | some j => decodeState j

/-! ## Helper lemmas about the node map -/

/-- The status stored under an id (the projection all child checks factor
through). -/
def statusOf (g : DagState) (x : String) : Option PhaseStatus :=
  (getNode g x).map (fun n => n.status)

theorem listAllCongr {l : List String} {p q : String → Bool}
    (h : ∀ a ∈ l, p a = q a) : l.all p = l.all q := by
  induction l with
  | nil => rfl
  | cons x xs ih =>
    have hx := h x (List.mem_cons_self x xs)
    simp only [List.all_cons, hx,
      ih (fun b hb => h b (List.mem_cons_of_mem x hb))]

theorem listAnyCongr {l : List String} {p q : String → Bool}
    (h : ∀ a ∈ l, p a = q a) : l.any p = l.any q := by
  induction l with
  | nil => rfl
  | cons x xs ih =>
    have hx := h x (List.mem_cons_self x xs)
    simp only [List.any_cons, hx,
      ih (fun b hb => h b (List.mem_cons_of_mem x hb))]

theorem updateParentOne_id (c : String) (now : Nat) (G : DagState) (n : PhaseNode) :
    (updateParentOne c now G n).id = n.id := by
  cases hc : n.children with
  | none => simp [updateParentOne, hc]
  | some cs =>
    simp only [updateParentOne, hc]
    split
    · split
      · rfl
      · split <;> rfl
    · rfl

theorem updateParentOne_children (c : String) (now : Nat) (G : DagState) (n : PhaseNode) :
    (updateParentOne c now G n).children = n.children := by
  cases hc : n.children with
  | none => simp [updateParentOne, hc]
  | some cs =>
    simp only [updateParentOne, hc]
    split
    · split
      · rfl
      · split
        · rfl
        · exact hc
    · exact hc

theorem updateParentOne_of_children_none (c : String) (now : Nat) (G : DagState)
    (n : PhaseNode) (h : n.children = none) : updateParentOne c now G n = n := by
  simp [updateParentOne, h]

theorem setStatusFields_id (n : PhaseNode) (s : PhaseStatus) (e : Option String) (now : Nat) :
    (setStatusFields n s e now).id = n.id := by
  cases e <;> simp only [setStatusFields] <;> split_ifs <;> rfl

theorem setStatusFields_children (n : PhaseNode) (s : PhaseStatus) (e : Option String) (now : Nat) :
    (setStatusFields n s e now).children = n.children := by
  cases e <;> simp only [setStatusFields] <;> split_ifs <;> rfl

theorem setStatusFields_status (n : PhaseNode) (s : PhaseStatus) (e : Option String) (now : Nat) :
    (setStatusFields n s e now).status = s := by
  cases e <;> simp only [setStatusFields] <;> split_ifs <;> rfl

theorem getNode_nil (y : String) : getNode [] y = none := rfl

theorem getNode_cons (m : PhaseNode) (t : DagState) (y : String) :
    getNode (m :: t) y = if m.id == y then some m else getNode t y := by
  cases h : (m.id == y)
  · simp only [getNode, h, Bool.false_eq_true, if_false]
    exact List.find?_cons_of_neg _ (by simp [h])
  · simp only [getNode, h, if_true]
    exact List.find?_cons_of_pos _ (by simp [h])

theorem getNode_eq_some (g : DagState) (x : String) (n : PhaseNode)
    (h : getNode g x = some n) : n ∈ g ∧ n.id = x := by
  rw [getNode] at h
  refine ⟨List.mem_of_find?_eq_some h, ?_⟩
  have := List.find?_some h
  simpa [beq_iff_eq] using this

theorem getNode_of_mem_nodup (g : DagState) (n : PhaseNode)
    (hnd : (g.map (fun m => m.id)).Nodup) (h : n ∈ g) :
    getNode g n.id = some n := by
  induction g with
  | nil => cases h
  | cons m t ih =>
    simp only [List.map_cons, List.nodup_cons, List.mem_map] at hnd
    rcases List.mem_cons.mp h with rfl | ht
    · rw [getNode_cons, if_pos (by simp)]
    · rw [getNode_cons, if_neg, ih hnd.2 ht]
      simp only [beq_iff_eq]
      intro heq
      exact hnd.1 ⟨n, ht, heq.symm⟩

theorem getNode_map_of_id_preserved (g : DagState) (f : PhaseNode → PhaseNode)
    (hf : ∀ n, (f n).id = n.id) (x : String) :
    getNode (g.map f) x = (getNode g x).map f := by
  induction g with
  | nil => rfl
  | cons m t ih =>
    rw [List.map_cons, getNode_cons, getNode_cons, hf m]
    by_cases hx : m.id = x
    · rw [if_pos (by simp [hx]), if_pos (by simp [hx]), Option.map_some']
    · rw [if_neg (by simp [hx]), if_neg (by simp [hx]), ih]

theorem setNode_eq_map (g : DagState) (x : String) (n' : PhaseNode) :
    setNode g x n' = g.map (fun m => if m.id == x then n' else m) := rfl

theorem getNode_setNode_other (g : DagState) (x : String) (n' : PhaseNode)
    (hid : n'.id = x) (y : String) (hyx : y ≠ x) :
    getNode (setNode g x n') y = getNode g y := by
  induction g with
  | nil => rfl
  | cons m t ih =>
    rw [setNode_eq_map, List.map_cons, ← setNode_eq_map]
    by_cases hm : m.id = x
    · rw [if_pos (by simp [hm]), getNode_cons, getNode_cons,
        if_neg (by simp [hid]; exact fun h => hyx h.symm),
        if_neg (by simp [hm]; exact fun h => hyx h.symm), ih]
    · rw [if_neg (by simp [hm]), getNode_cons, getNode_cons]
      by_cases hmy : m.id = y
      · rw [if_pos (by simp [hmy]), if_pos (by simp [hmy])]
      · rw [if_neg (by simp [hmy]), if_neg (by simp [hmy]), ih]

theorem getNode_setNode_self (g : DagState) (x : String) (n' : PhaseNode)
    (hid : n'.id = x) (nx : PhaseNode) (hx : getNode g x = some nx) :
    getNode (setNode g x n') x = some n' := by
  induction g with
  | nil => simp [getNode] at hx
  | cons m t ih =>
    rw [setNode_eq_map, List.map_cons, ← setNode_eq_map]
    by_cases hm : m.id = x
    · rw [if_pos (by simp [hm]), getNode_cons, if_pos (by simp [hid])]
    · rw [getNode_cons, if_neg (by simp [hm])] at hx
      rw [if_neg (by simp [hm]), getNode_cons, if_neg (by simp [hm]), ih hx]

theorem setNode_map_ids (g : DagState) (x : String) (n' : PhaseNode)
    (hid : n'.id = x) :
    (setNode g x n').map (fun m => m.id) = g.map (fun m => m.id) := by
  rw [setNode_eq_map, List.map_map]
  apply List.map_congr_left
  intro m _
  simp only [Function.comp_apply]
  split
  · next h => rw [hid]; exact (beq_iff_eq.mp h).symm
  · rfl

theorem setNode_mem_other (g : DagState) (x : String) (n' : PhaseNode)
    (P : PhaseNode) (hP : P ∈ g) (hne : P.id ≠ x) : P ∈ setNode g x n' := by
  rw [setNode_eq_map]
  have : (if P.id == x then n' else P) = P := by simp [beq_iff_eq, hne]
  rw [← this]
  exact List.mem_map_of_mem _ hP

theorem childDone_eq_of_statusOf (G G' : DagState) (cid : String)
    (h : statusOf G cid = statusOf G' cid) : childDone G cid = childDone G' cid := by
  rw [childDone, childDone]
  rw [statusOf, statusOf] at h
  cases hg : getNode G cid <;> cases hg' : getNode G' cid <;>
    rw [hg, hg'] at h <;> simp_all

theorem childFailed_eq_of_statusOf (G G' : DagState) (cid : String)
    (h : statusOf G cid = statusOf G' cid) : childFailed G cid = childFailed G' cid := by
  rw [childFailed, childFailed]
  rw [statusOf, statusOf] at h
  cases hg : getNode G cid <;> cases hg' : getNode G' cid <;>
    rw [hg, hg'] at h <;> simp_all

theorem childActive_eq_of_statusOf (G G' : DagState) (cid : String)
    (h : statusOf G cid = statusOf G' cid) : childActive G cid = childActive G' cid := by
  rw [childActive, childActive]
  rw [statusOf, statusOf] at h
  cases hg : getNode G cid <;> cases hg' : getNode G' cid <;>
    rw [hg, hg'] at h <;> simp_all

theorem derivedStatus_congr (G G' : DagState) (cs : List String)
    (h : ∀ cid ∈ cs, statusOf G cid = statusOf G' cid) :
    derivedStatus G cs = derivedStatus G' cs := by
  rw [derivedStatus, derivedStatus]
  rw [listAllCongr (fun cid hc => childDone_eq_of_statusOf G G' cid (h cid hc)),
    listAnyCongr (fun cid hc => childFailed_eq_of_statusOf G G' cid (h cid hc)),
    listAnyCongr (fun cid hc => childActive_eq_of_statusOf G G' cid (h cid hc))]

/-! ## The parent sweep as a pointwise map

`updateParentStatus` threads the partially mutated map through its loop.  On
states whose virtual parents have only leaf children (as produced by every
expansion the orchestrator performs) the thread is irrelevant and the sweep
acts pointwise; this section proves that equivalence. -/

/-- Children of virtual parents are leaves: no nested virtual parents. -/
def FlatParents (g : DagState) : Prop :=
  ∀ p ∈ g, ∀ cs, p.children = some cs → ∀ q ∈ g, q.id ∈ cs → q.children = none

/-- Pointwise parent sweep, all lookups against the fixed state `g`. -/
def sweepOne (c : String) (now : Nat) (g : DagState) : DagState :=
  g.map (fun n => updateParentOne c now g n)

/-- Sweep applied only to marked ids. -/
def partialSweep (c : String) (now : Nat) (g : DagState) (mark : String → Bool) : DagState :=
  g.map (fun n => if mark n.id then updateParentOne c now g n else n)

theorem partialSweep_false (c : String) (now : Nat) (g : DagState) :
    partialSweep c now g (fun _ => false) = g := by
  rw [partialSweep]
  simp

theorem partialSweep_congr (c : String) (now : Nat) (g : DagState)
    (mark mark' : String → Bool) (h : ∀ x, mark x = mark' x) :
    partialSweep c now g mark = partialSweep c now g mark' := by
  rw [partialSweep, partialSweep]
  apply List.map_congr_left
  intro n _
  rw [h n.id]

theorem FlatParents_map (g : DagState) (h : PhaseNode → PhaseNode)
    (hid : ∀ n ∈ g, (h n).id = n.id) (hch : ∀ n ∈ g, (h n).children = n.children)
    (hf : FlatParents g) : FlatParents (g.map h) := by
  intro p hp cs hcs q hq hqc
  rcases List.mem_map.mp hp with ⟨p0, hp0, rfl⟩
  rcases List.mem_map.mp hq with ⟨q0, hq0, rfl⟩
  rw [hch q0 hq0]
  rw [hch p0 hp0] at hcs
  rw [hid q0 hq0] at hqc
  exact hf p0 hp0 cs hcs q0 hq0 hqc

theorem childDone_of_statusOf_some (G : DagState) (x : String) (st : PhaseStatus)
    (h : statusOf G x = some st) :
    childDone G x = (st == PhaseStatus.completed || st == PhaseStatus.skipped) := by
  rw [childDone]
  rw [statusOf] at h
  cases hg : getNode G x <;> rw [hg] at h <;> simp_all

theorem childFailed_of_statusOf_some (G : DagState) (x : String) (st : PhaseStatus)
    (h : statusOf G x = some st) :
    childFailed G x = (st == PhaseStatus.failed) := by
  rw [childFailed]
  rw [statusOf] at h
  cases hg : getNode G x <;> rw [hg] at h <;> simp_all

theorem childActive_of_statusOf_some (G : DagState) (x : String) (st : PhaseStatus)
    (h : statusOf G x = some st) :
    childActive G x = (st == PhaseStatus.pending || st == PhaseStatus.running) := by
  rw [childActive]
  rw [statusOf] at h
  cases hg : getNode G x <;> rw [hg] at h <;> simp_all

/-- Lookups of any leaf-child are untouched by a partial sweep. -/
theorem partialSweep_statusOf_child (c : String) (now : Nat) (g : DagState)
    (mark : String → Bool) (hflat : FlatParents g)
    (P : PhaseNode) (hP : P ∈ g) (cs : List String) (hcs : P.children = some cs)
    (cid : String) (hcid : cid ∈ cs) :
    statusOf (partialSweep c now g mark) cid = statusOf g cid := by
  rw [statusOf, statusOf, partialSweep,
    getNode_map_of_id_preserved _ _ (fun n => by split <;> simp [updateParentOne_id])]
  cases hq : getNode g cid with
  | none => rfl
  | some q =>
    obtain ⟨hqmem, hqid⟩ := getNode_eq_some g cid q hq
    have hqnone : q.children = none := hflat P hP cs hcs q hqmem (hqid ▸ hcid)
    simp only [Option.map_some']
    congr 1
    split
    · rw [updateParentOne_of_children_none _ _ _ _ hqnone]
    · rfl

/-- `updateParentOne` depends on the state only through the statuses of the
node's own children. -/
theorem updateParentOne_congr (c : String) (now : Nat) (G G' : DagState)
    (n : PhaseNode)
    (h : ∀ cs, n.children = some cs → ∀ cid ∈ cs, statusOf G cid = statusOf G' cid) :
    updateParentOne c now G n = updateParentOne c now G' n := by
  cases hc : n.children with
  | none => rw [updateParentOne_of_children_none _ _ _ _ hc,
      updateParentOne_of_children_none _ _ _ _ hc]
  | some cs =>
    have hst := h cs hc
    simp only [updateParentOne, hc]
    rw [listAllCongr (fun cid hcid => childDone_eq_of_statusOf G G' cid (hst cid hcid)),
      listAnyCongr (fun cid hcid => childFailed_eq_of_statusOf G G' cid (hst cid hcid)),
      listAnyCongr (fun cid hcid => childActive_eq_of_statusOf G G' cid (hst cid hcid))]

theorem getNode_of_mem_ids (g : DagState) (x : String)
    (hnd : (g.map (fun n => n.id)).Nodup) (hx : x ∈ g.map (fun n => n.id)) :
    ∃ n, getNode g x = some n ∧ n ∈ g ∧ n.id = x := by
  rcases List.mem_map.mp hx with ⟨n, hn, rfl⟩
  exact ⟨n, getNode_of_mem_nodup g n hnd hn, hn, rfl⟩

/-- Replacing the freshly swept node inside a partial sweep extends the mark. -/
theorem setNode_partialSweep (c : String) (now : Nat) (g : DagState)
    (mark : String → Bool) (t : String) (nt : PhaseNode)
    (hnd : (g.map (fun n => n.id)).Nodup)
    (ht : getNode g t = some nt) :
    setNode (partialSweep c now g mark) t (updateParentOne c now g nt) =
      partialSweep c now g (fun y => mark y || y == t) := by
  rw [partialSweep, partialSweep, setNode_eq_map, List.map_map]
  apply List.map_congr_left
  intro m hm
  simp only [Function.comp_apply]
  by_cases hmt : m.id = t
  · have hmnt : m = nt := by
      have h1 := getNode_of_mem_nodup g m hnd hm
      rw [hmt, ht] at h1
      exact (Option.some.injEq _ _ ▸ h1).symm
    subst hmnt
    have : ((if mark m.id then updateParentOne c now g m else m).id == t) = true := by
      split <;> simp [updateParentOne_id, hmt]
    rw [if_pos this, if_pos (by simp [hmt])]
  · have : ((if mark m.id then updateParentOne c now g m else m).id == t) = false := by
      split <;> simp [updateParentOne_id, hmt]
    rw [if_neg (by simp [this]), show ((m.id == t) = false) by simp [hmt], Bool.or_false]

/-- The threaded fold of `updateParentStatus`, started from a partially swept
state, finishes the sweep of the remaining (unprocessed, duplicate-free) ids. -/
theorem sweep_foldl (c : String) (now : Nat) (g : DagState)
    (hnd : (g.map (fun n => n.id)).Nodup) (hflat : FlatParents g) :
    ∀ (todo : List String) (mark : String → Bool),
      todo.Nodup → (∀ x ∈ todo, x ∈ g.map (fun n => n.id)) →
      (∀ x ∈ todo, mark x = false) →
      todo.foldl
        (fun acc nid =>
          match getNode acc nid with
          | none => acc
          | some n => setNode acc nid (updateParentOne c now acc n))
        (partialSweep c now g mark)
      = partialSweep c now g (fun y => mark y || todo.contains y) := by
  intro todo
  induction todo with
  | nil =>
    intro mark _ _ _
    rw [List.foldl_nil]
    exact partialSweep_congr _ _ _ _ _ (fun x => by simp)
  | cons t ts ih =>
    intro mark hndt hmem hmark
    rw [List.foldl_cons]
    obtain ⟨nt, hnt, hntmem, hntid⟩ :=
      getNode_of_mem_ids g t hnd (hmem t (List.mem_cons_self t ts))
    have hps : getNode (partialSweep c now g mark) t = some nt := by
      rw [partialSweep,
        getNode_map_of_id_preserved _ _ (fun n => by split <;> simp [updateParentOne_id]), hnt]
      simp only [Option.map_some']
      rw [hntid, hmark t (List.mem_cons_self t ts), if_neg (by simp)]
    rw [hps]
    dsimp only
    have hupd : updateParentOne c now (partialSweep c now g mark) nt =
        updateParentOne c now g nt := by
      apply updateParentOne_congr
      intro cs hcs cid hcid
      exact partialSweep_statusOf_child c now g mark hflat nt hntmem cs hcs cid hcid
    rw [hupd, setNode_partialSweep c now g mark t nt hnd hnt]
    have hnodup := (List.nodup_cons.mp hndt)
    rw [ih _ hnodup.2 (fun x hx => hmem x (List.mem_cons_of_mem t hx))
      (fun x hx => by
        have hxt : x ≠ t := fun h => hnodup.1 (h ▸ hx)
        rw [hmark x (List.mem_cons_of_mem t hx)]
        simp [hxt])]
    apply partialSweep_congr
    intro x
    by_cases hx : x = t
    · simp [hx, List.contains_cons]
    · have hb : (x == t) = false := by simp [hx]
      simp [hx, List.contains_cons, hb, Bool.or_assoc]

/-- On flat states the threaded parent sweep is the pointwise sweep. -/
theorem updateParentStatus_eq_sweepOne (g : DagState) (c : String) (now : Nat)
    (hnd : (g.map (fun n => n.id)).Nodup) (hflat : FlatParents g) :
    updateParentStatus g c now = sweepOne c now g := by
  rw [updateParentStatus]
  have h0 := sweep_foldl c now g hnd hflat (g.map (fun n => n.id)) (fun _ => false)
    hnd (fun x hx => hx) (fun _ _ => rfl)
  rw [partialSweep_false] at h0
  rw [h0, sweepOne, partialSweep]
  apply List.map_congr_left
  intro n hn
  rw [if_pos]
  simp only [Bool.false_or]
  exact List.elem_eq_true_of_mem (List.mem_map_of_mem _ hn)

/-! ## Sample nodes used by witnesses and counterexamples -/

/-- A root node with no dependencies. -/
def nodeRootA : PhaseNode := { id := "a" }

/-- A node depending on `"a"`, with `"a"` completed in `sampleChain`. -/
def nodeB : PhaseNode := { id := "b", dependsOn := ["a"] }

/-- `a` completed, `b` pending and ready. -/
def sampleChain : DagState :=
  [{ nodeRootA with status := .completed }, nodeB]

/-- Run an `expandNode` result, keeping the state (`[]` is never reached in
the scenarios below). -/
def expandState (e : Except (String × DagState) DagState) : DagState :=
  match e with
  | .ok g => g
  | .error _ => []

/-- Run an `updateStatus` result, keeping the state. -/
def updateState (e : Except String DagState) : DagState :=
  match e with
  | .ok g => g
  | .error _ => []

/-- Parent of the C2/C3 expansion scenarios. -/
def scenParent : PhaseNode := { id := "P" }

/-- First child of the expansion scenarios. -/
def scenKid1 : PhaseNode := { id := "c1" }

/-- Second (aggregation) child of the expansion scenarios. -/
def scenKid2 : PhaseNode := { id := "c2", dependsOn := ["c1"] }

/-- Node `X` of the C3 example. -/
def scenX : PhaseNode := { id := "X" }

/-- Downstream node `D` of the C3 example, depending on `X`. -/
def scenD : PhaseNode := { id := "D", dependsOn := ["X"] }

/-- `P` expanded into `[c1, c2]`. -/
def scenExpanded : DagState :=
  expandState (expandNode [scenParent] "P" [scenKid1, scenKid2] 1)

/-- … then `c1` completed through `updateStatus`. -/
def scenAfterC1 : DagState :=
  updateState (updateStatus scenExpanded "c1" .completed none 2)

/-- … then `c2` completed through `updateStatus`; no `updateStatus` is ever
aimed at `P` itself. -/
def scenAfterC2 : DagState :=
  updateState (updateStatus scenAfterC1 "c2" .completed none 3)

/-! ## C1 -/

/-- C1: every node returned by `getReadyNodes()` has status Pending, and each
of its dependency ids resolves to an existing node whose status is Completed
or Skipped; hence no returned node has a missing or non-terminal-success
dependency. -/
theorem C1_getReadyNodes_sound (g : DagState) (n : PhaseNode)
    (h : n ∈ getReadyNodes g) :
    n.status = .pending ∧
    ∀ d ∈ n.dependsOn, ∃ m, getNode g d = some m ∧
      (m.status = .completed ∨ m.status = .skipped) := by
  rw [getReadyNodes] at h
  obtain ⟨hmem, hpred⟩ := List.mem_filter.mp h
  simp only [Bool.and_eq_true, beq_iff_eq, List.all_eq_true] at hpred
  refine ⟨hpred.1, ?_⟩
  intro d hd
  have hdep := hpred.2 d hd
  rw [depSatisfied] at hdep
  cases hg : getNode g d with
  | none => rw [hg] at hdep; simp at hdep
  | some m =>
    rw [hg] at hdep
    simp only [Bool.or_eq_true, beq_iff_eq] at hdep
    exact ⟨m, rfl, hdep⟩

/-- Witness for C1 at the concrete state `sampleChain`, where `b` is ready. -/
theorem C1_witness :
    nodeB.status = PhaseStatus.pending ∧
    ∀ d ∈ nodeB.dependsOn, ∃ m, getNode sampleChain d = some m ∧
      (m.status = .completed ∨ m.status = .skipped) :=
  C1_getReadyNodes_sound sampleChain nodeB (by decide)

/-! ## C2 -/

/-- C2: after an `updateStatus` call on a node `c`, every virtual parent whose
child list contains only leaf children (as every parent created by
`expandNode` does), that is not itself the target of the call, and whose
status satisfied the derived rule before the call, again has exactly the
derived status: Completed iff every child is Completed or Skipped, Failed iff
some child is Failed and none remains Pending or Running, otherwise Running.
The status transition hypothesis (`hgood`) reflects the orchestrator, which
moves only Pending/Running nodes into Pending or Running.  In particular
(second conjunct), expanding `P` into `[c1, c2]` and completing both children
via `updateStatus` leaves `P` Completed without any direct
`updateStatus(P, …)` call. -/
theorem C2_parent_status_derived
    (g : DagState) (c : String) (s : PhaseStatus) (err : Option String) (now : Nat)
    (P : PhaseNode) (cs : List String) (cOld : PhaseNode)
    (hnd : (g.map (fun n => n.id)).Nodup)
    (hflat : FlatParents g)
    (hP : P ∈ g) (hcs : P.children = some cs)
    (hc : getNode g c = some cOld)
    (hcP : c ≠ P.id)
    (hkids : ∀ cid ∈ cs, ∃ q, getNode g cid = some q)
    (hinv : P.status = derivedStatus g cs)
    (hgood : s = PhaseStatus.pending ∨ s = PhaseStatus.running →
      cOld.status = PhaseStatus.pending ∨ cOld.status = PhaseStatus.running) :
    (∃ g' P', updateStatus g c s err now = .ok g' ∧
      getNode g' P.id = some P' ∧ P'.children = some cs ∧
      P'.status = derivedStatus g' cs) ∧
    statusOf scenAfterC2 "P" = some PhaseStatus.completed := by
  refine ⟨?_, by decide⟩
  obtain ⟨hcOldmem, hcOldid⟩ := getNode_eq_some g c cOld hc
  have hcNewid : (setStatusFields cOld s err now).id = c := by
    rw [setStatusFields_id, hcOldid]
  set cNew := setStatusFields cOld s err now with hcNewdef
  set g1 := setNode g c cNew with hg1def
  have hok : updateStatus g c s err now = .ok (updateParentStatus g1 c now) := by
    rw [updateStatus, hc]
  have hnd1 : (g1.map (fun n => n.id)).Nodup := by
    rw [hg1def, setNode_map_ids g c cNew hcNewid]; exact hnd
  have hflat1 : FlatParents g1 := by
    rw [hg1def, setNode_eq_map]
    refine FlatParents_map g _ ?_ ?_ hflat
    · intro n _
      split
      · next hh => rw [hcNewid]; exact (beq_iff_eq.mp hh).symm
      · rfl
    · intro n hn
      split
      · next hh =>
        have h1 := getNode_of_mem_nodup g n hnd hn
        rw [beq_iff_eq.mp hh, hc] at h1
        have hn' : n = cOld := Option.some.inj h1.symm
        rw [hcNewdef, setStatusFields_children, hn']
      · rfl
  have hP1 : P ∈ g1 := by
    rw [hg1def]; exact setNode_mem_other g c cNew P hP (Ne.symm hcP)
  have hg1c : statusOf g1 c = some s := by
    rw [statusOf, hg1def, getNode_setNode_self g c cNew hcNewid cOld hc,
      Option.map_some', hcNewdef, setStatusFields_status]
  have hg1other : ∀ cid, cid ≠ c → statusOf g1 cid = statusOf g cid := by
    intro cid hne
    rw [statusOf, statusOf, hg1def, getNode_setNode_other g c cNew hcNewid cid hne]
  have hg2 : updateParentStatus g1 c now = sweepOne c now g1 :=
    updateParentStatus_eq_sweepOne g1 c now hnd1 hflat1
  have hsweep_ps : sweepOne c now g1 = partialSweep c now g1 (fun _ => true) := by
    rw [sweepOne, partialSweep]
    exact List.map_congr_left (fun n _ => by rw [if_pos rfl])
  have hstg2 : ∀ cid ∈ cs, statusOf (updateParentStatus g1 c now) cid = statusOf g1 cid := by
    intro cid hcid
    rw [hg2, hsweep_ps]
    exact partialSweep_statusOf_child c now g1 _ hflat1 P hP1 cs hcs cid hcid
  have hderg2 : derivedStatus (updateParentStatus g1 c now) cs = derivedStatus g1 cs :=
    derivedStatus_congr _ _ cs hstg2
  have hgetP' : getNode (updateParentStatus g1 c now) P.id =
      some (updateParentOne c now g1 P) := by
    rw [hg2, sweepOne,
      getNode_map_of_id_preserved g1 _ (fun n => updateParentOne_id c now g1 n),
      getNode_of_mem_nodup g1 P hnd1 hP1, Option.map_some']
  refine ⟨updateParentStatus g1 c now, updateParentOne c now g1 P, hok, hgetP',
    by rw [updateParentOne_children, hcs], ?_⟩
  rw [hderg2]
  simp only [updateParentOne, hcs]
  by_cases hcont : cs.contains c = true
  · rw [if_pos hcont]
    have hcmem : c ∈ cs := by simpa using hcont
    by_cases hall : cs.all (childDone g1) = true
    · rw [if_pos hall, derivedStatus, if_pos hall]
    · rw [if_neg hall]
      by_cases hfb : (cs.any (childFailed g1) && !cs.any (childActive g1)) = true
      · rw [if_pos hfb, derivedStatus, if_neg hall, if_pos hfb]
      · rw [if_neg hfb, derivedStatus, if_neg hall, if_neg hfb]
        have hstc : statusOf g c = some cOld.status := by
          rw [statusOf, hc, Option.map_some']
        -- the update target was a child of `P`: show the pre-state already
        -- derived to Running, hence `P.status = Running` by `hinv`.
        have hallg : cs.all (childDone g) = false := by
          cases hallgv : cs.all (childDone g) with
          | false => rfl
          | true =>
            exfalso
            have hdc := List.all_eq_true.mp hallgv c hcmem
            rw [childDone_of_statusOf_some g c cOld.status hstc] at hdc
            have hcoldst : cOld.status = .completed ∨ cOld.status = .skipped := by
              simpa using hdc
            cases s with
            | pending =>
              rcases hgood (Or.inl rfl) with h | h <;>
                rcases hcoldst with h2 | h2 <;> rw [h2] at h <;> cases h
            | running =>
              rcases hgood (Or.inr rfl) with h | h <;>
                rcases hcoldst with h2 | h2 <;> rw [h2] at h <;> cases h
            | completed =>
              apply hall
              apply List.all_eq_true.mpr
              intro cid hcid
              by_cases hcidc : cid = c
              · rw [hcidc, childDone_of_statusOf_some g1 c _ hg1c]; rfl
              · rw [childDone_eq_of_statusOf g1 g cid (hg1other cid hcidc)]
                exact List.all_eq_true.mp hallgv cid hcid
            | skipped =>
              apply hall
              apply List.all_eq_true.mpr
              intro cid hcid
              by_cases hcidc : cid = c
              · rw [hcidc, childDone_of_statusOf_some g1 c _ hg1c]; rfl
              · rw [childDone_eq_of_statusOf g1 g cid (hg1other cid hcidc)]
                exact List.all_eq_true.mp hallgv cid hcid
            | failed =>
              apply hfb
              have hanyF : cs.any (childFailed g1) = true :=
                List.any_eq_true.mpr ⟨c, hcmem,
                  by rw [childFailed_of_statusOf_some g1 c _ hg1c]; rfl⟩
              have hanyA : cs.any (childActive g1) = false := by
                apply List.any_eq_false.mpr
                intro cid hcid
                by_cases hcidc : cid = c
                · rw [hcidc, childActive_of_statusOf_some g1 c _ hg1c]; simp
                · rw [childActive_eq_of_statusOf g1 g cid (hg1other cid hcidc)]
                  have hdone := List.all_eq_true.mp hallgv cid hcid
                  cases hq : getNode g cid with
                  | none => rw [childDone] at hdone; rw [hq] at hdone; cases hdone
                  | some q =>
                    have hstq : statusOf g cid = some q.status := by
                      rw [statusOf, hq, Option.map_some']
                    rw [childDone_of_statusOf_some g cid _ hstq] at hdone
                    rw [childActive_of_statusOf_some g cid _ hstq]
                    have hdone' : q.status = PhaseStatus.completed ∨
                        q.status = PhaseStatus.skipped := by simpa using hdone
                    rcases hdone' with h | h <;> rw [h] <;> simp
              rw [hanyF, hanyA]
              rfl
        have hfbg : (cs.any (childFailed g) && !cs.any (childActive g)) = false := by
          cases hfbv : (cs.any (childFailed g) && !cs.any (childActive g)) with
          | false => rfl
          | true =>
            exfalso
            have hfbv' : cs.any (childFailed g) = true ∧
                cs.any (childActive g) = false := by simpa using hfbv
            obtain ⟨hanyFg, hanyAg⟩ := hfbv'
            have hactc : childActive g c = false := by
              have := List.any_eq_false.mp hanyAg c hcmem
              simpa using this
            rw [childActive_of_statusOf_some g c cOld.status hstc] at hactc
            have hsnotPR : ¬(s = PhaseStatus.pending ∨ s = PhaseStatus.running) := by
              intro hs
              rcases hgood hs with h | h <;> rw [h] at hactc <;> cases hactc
            have hanyA1 : cs.any (childActive g1) = false := by
              apply List.any_eq_false.mpr
              intro cid hcid
              by_cases hcidc : cid = c
              · rw [hcidc, childActive_of_statusOf_some g1 c _ hg1c]
                cases s with
                | pending => exact absurd (Or.inl rfl) hsnotPR
                | running => exact absurd (Or.inr rfl) hsnotPR
                | completed => simp
                | failed => simp
                | skipped => simp
              · rw [childActive_eq_of_statusOf g1 g cid (hg1other cid hcidc)]
                have := List.any_eq_false.mp hanyAg cid hcid
                simpa using this
            have hanyF1 : cs.any (childFailed g1) = false := by
              cases hv : cs.any (childFailed g1) with
              | false => rfl
              | true => exact absurd (by rw [hv, hanyA1]; rfl) hfb
            obtain ⟨cid0, hcid0, hcf0⟩ := List.any_eq_true.mp hanyFg
            by_cases hc0 : cid0 = c
            · have hcoldF : cOld.status = PhaseStatus.failed := by
                rw [hc0, childFailed_of_statusOf_some g c cOld.status hstc] at hcf0
                exact beq_iff_eq.mp hcf0
              have hsnotF : s ≠ PhaseStatus.failed := by
                intro hsf
                have hcf1 : childFailed g1 c = true := by
                  rw [childFailed_of_statusOf_some g1 c _ hg1c, hsf]; rfl
                have := List.any_eq_true.mpr ⟨c, hcmem, hcf1⟩
                rw [hanyF1] at this; cases this
              have hsCS : s = PhaseStatus.completed ∨ s = PhaseStatus.skipped := by
                cases s with
                | pending => exact absurd (Or.inl rfl) hsnotPR
                | running => exact absurd (Or.inr rfl) hsnotPR
                | completed => exact Or.inl rfl
                | failed => exact absurd rfl hsnotF
                | skipped => exact Or.inr rfl
              apply hall
              apply List.all_eq_true.mpr
              intro cid hcid
              by_cases hcidc : cid = c
              · rw [hcidc, childDone_of_statusOf_some g1 c _ hg1c]
                rcases hsCS with h | h <;> rw [h] <;> rfl
              · rw [childDone_eq_of_statusOf g1 g cid (hg1other cid hcidc)]
                obtain ⟨q, hq⟩ := hkids cid hcid
                have hstq : statusOf g cid = some q.status := by
                  rw [statusOf, hq, Option.map_some']
                have hqA : childActive g cid = false := by
                  have := List.any_eq_false.mp hanyAg cid hcid
                  simpa using this
                have hqF : childFailed g cid = false := by
                  have h1 : childFailed g1 cid = false := by
                    have := List.any_eq_false.mp hanyF1 cid hcid
                    simpa using this
                  rw [childFailed_eq_of_statusOf g1 g cid (hg1other cid hcidc)] at h1
                  exact h1
                rw [childDone_of_statusOf_some g cid _ hstq]
                rw [childActive_of_statusOf_some g cid _ hstq] at hqA
                rw [childFailed_of_statusOf_some g cid _ hstq] at hqF
                cases hqs : q.status <;> rw [hqs] at hqA hqF <;> simp_all
            · have hcf1 : childFailed g1 cid0 = true := by
                rw [childFailed_eq_of_statusOf g1 g cid0 (hg1other cid0 hc0)]
                exact hcf0
              have := List.any_eq_true.mpr ⟨cid0, hcid0, hcf1⟩
              rw [hanyF1] at this; cases this
        rw [hinv, derivedStatus, if_neg (by rw [hallg]; exact Bool.false_ne_true),
          if_neg (by rw [hfbg]; exact Bool.false_ne_true)]
  · rw [if_neg hcont]
    have hder : derivedStatus g1 cs = derivedStatus g cs := by
      apply derivedStatus_congr
      intro cid hcid
      refine hg1other cid (fun he => hcont ?_)
      simpa using (he ▸ hcid)
    rw [hder, ← hinv]

/-- The parent node as it sits in `scenExpanded`. -/
def scenParentRunning : PhaseNode :=
  { id := "P", status := .running, startedAt := some 1, children := some ["c1", "c2"] }

theorem scenExpanded_eq : scenExpanded = [scenParentRunning, scenKid1, scenKid2] := by
  decide

theorem scenExpanded_flat : FlatParents scenExpanded := by
  intro p hp cs hcs q hq hqc
  rw [scenExpanded_eq] at hp hq
  have hp' : p = scenParentRunning ∨ p = scenKid1 ∨ p = scenKid2 := by simpa using hp
  have hq' : q = scenParentRunning ∨ q = scenKid1 ∨ q = scenKid2 := by simpa using hq
  rcases hp' with rfl | rfl | rfl
  · have hcs' : cs = ["c1", "c2"] := by
      have : some (["c1", "c2"] : List String) = some cs := hcs
      exact (Option.some.inj this).symm
    subst hcs'
    rcases hq' with rfl | rfl | rfl
    · simp [scenParentRunning] at hqc
    · rfl
    · rfl
  · cases hcs
  · cases hcs

/-- Witness for C2 at the concrete expanded state: completing child `c1`
keeps `P`'s status derived. -/
theorem C2_witness :
    (∃ g' P', updateStatus scenExpanded "c1" PhaseStatus.completed none 2 = .ok g' ∧
      getNode g' scenParentRunning.id = some P' ∧ P'.children = some ["c1", "c2"] ∧
      P'.status = derivedStatus g' ["c1", "c2"]) ∧
    statusOf scenAfterC2 "P" = some PhaseStatus.completed :=
  C2_parent_status_derived scenExpanded "c1" PhaseStatus.completed none 2
    scenParentRunning ["c1", "c2"] scenKid1
    (by decide) scenExpanded_flat (by decide) (by decide) (by decide) (by decide)
    (fun cid hcid => by
      rcases (by simpa using hcid : cid = "c1" ∨ cid = "c2") with rfl | rfl
      · exact ⟨scenKid1, by decide⟩
      · exact ⟨scenKid2, by decide⟩)
    (by decide)
    (fun h => absurd h (by decide))

/-! ## C3 -/

theorem setNode_ids_sub (g : DagState) (x : String) (n' : PhaseNode)
    (hid : n'.id = x) (m : PhaseNode) (hm : m ∈ setNode g x n') :
    ∃ n ∈ g, n.id = m.id := by
  rw [setNode_eq_map] at hm
  rcases List.mem_map.mp hm with ⟨n, hn, hnm⟩
  refine ⟨n, hn, ?_⟩
  rw [← hnm]
  split
  · next hh => rw [hid]; exact beq_iff_eq.mp hh
  · rfl

theorem getNode_append_left (a b : DagState) (x : String) (n : PhaseNode)
    (h : getNode a x = some n) : getNode (a ++ b) x = some n := by
  rw [getNode, List.find?_append]
  rw [getNode] at h
  rw [h]
  rfl

theorem getNode_append_right (a b : DagState) (x : String)
    (h : getNode a x = none) : getNode (a ++ b) x = getNode b x := by
  rw [getNode, List.find?_append]
  rw [getNode] at h
  rw [h]
  rfl

theorem getNode_none_of_fresh (g : DagState) (x : String)
    (h : ∀ m ∈ g, m.id ≠ x) : getNode g x = none := by
  rw [getNode]
  apply List.find?_eq_none.mpr
  intro m hm
  simp [h m hm]

theorem mapSet_fresh (g : DagState) (c : PhaseNode)
    (h : ∀ m ∈ g, m.id ≠ c.id) : mapSet g c = g ++ [c] := by
  rw [mapSet, if_neg]
  intro hany
  obtain ⟨m, hm, hmc⟩ := List.any_eq_true.mp hany
  exact h m hm (beq_iff_eq.mp hmc)

theorem foldl_mapSet_append (ks : List PhaseNode) :
    ∀ (g : DagState), (∀ k ∈ ks, ∀ m ∈ g, m.id ≠ k.id) →
    (ks.map (fun c => c.id)).Nodup → ks.foldl mapSet g = g ++ ks := by
  induction ks with
  | nil => intro g _ _; simp
  | cons k t ih =>
    intro g hfresh hnd
    rw [List.foldl_cons, mapSet_fresh g k (hfresh k (List.mem_cons_self k t))]
    rw [List.map_cons, List.nodup_cons] at hnd
    rw [ih (g ++ [k]) ?_ hnd.2]
    · simp
    · intro k' hk' m hm
      rcases List.mem_append.mp hm with hmg | hmk
      · exact hfresh k' (List.mem_cons_of_mem k hk') m hmg
      · have : m = k := by simpa using hmk
        subst this
        intro hkk
        exact hnd.1 (hkk ▸ List.mem_map_of_mem _ hk')

/-- The dependency rewrite of `expandNode` applied to one node. -/
def rewriteNode (pid aggId : String) (n : PhaseNode) : PhaseNode :=
  { n with dependsOn := n.dependsOn.map (substDep pid aggId) }

/-- The parent record as `expandNode` leaves it. -/
def expandedParent (P : PhaseNode) (children : List PhaseNode) (now : Nat) : PhaseNode :=
  { P with children := some (children.map (fun c => c.id)), status := .running, startedAt := some now }

theorem rewriteNode_id (pid aggId : String) (n : PhaseNode) :
    (rewriteNode pid aggId n).id = n.id := rfl

theorem expandedParent_id (P : PhaseNode) (children : List PhaseNode) (now : Nat) :
    (expandedParent P children now).id = P.id := rfl

/-- C3: `expandNode(parentId, children)` (non-empty `children`, fresh child
ids) rewrites, in every node other than the parent, each dependency on
`parentId` to the id of the last child; inserts every child (with the same
rewrite applied to its own dependencies); and re-stores the parent as Running
with a start time and the children attached.  The final conjunct is the
specification's example: a node `D` with `dependsOn = ["X"]` has
`dependsOn = ["c2"]` after `expandNode("X", [c1, c2])`. -/
theorem C3_expandNode_spec (g : DagState) (pid : String) (children : List PhaseNode)
    (now : Nat) (P : PhaseNode)
    (hnd : (g.map (fun n => n.id)).Nodup)
    (hP : getNode g pid = some P)
    (hne : children ≠ [])
    (hknd : (children.map (fun c => c.id)).Nodup)
    (hfresh : ∀ k ∈ children, ∀ m ∈ g, k.id ≠ m.id) :
    (∃ g', expandNode g pid children now = .ok g' ∧
      (∀ n ∈ g, n.id ≠ pid →
        getNode g' n.id = some (rewriteNode pid (children.getLast hne).id n)) ∧
      (∀ k ∈ children,
        getNode g' k.id = some (rewriteNode pid (children.getLast hne).id k)) ∧
      getNode g' pid = some (expandedParent P children now)) ∧
    (getNode (expandState (expandNode [scenX, scenD] "X" [scenKid1, scenKid2] 5)) "D").map
      (fun n => n.dependsOn) = some ["c2"] := by
  refine ⟨?_, by decide⟩
  obtain ⟨hPmem, hPid⟩ := getNode_eq_some g pid P hP
  have hpar_id : (expandedParent P children now).id = pid := by
    rw [expandedParent_id, hPid]
  have hexp : expandNode g pid children now =
      .ok ((setNode g pid (expandedParent P children now) ++ children).map
        (fun m => if m.id == pid then m
          else rewriteNode pid (children.getLast hne).id m)) := by
    rw [expandNode, hP]
    dsimp only
    rw [List.getLast?_eq_getLast children hne]
    rw [foldl_mapSet_append children _ ?_ hknd]
    · rfl
    · intro k hk m hm
      rcases setNode_ids_sub g pid _ hpar_id m hm with ⟨n, hn, hnid⟩
      rw [← hnid]
      exact fun hh => hfresh k hk n hn hh.symm
  have hids : ∀ m : PhaseNode,
      ((fun m => if m.id == pid then m
        else rewriteNode pid (children.getLast hne).id m) m).id = m.id := by
    intro m
    dsimp only
    split
    · rfl
    · exact rewriteNode_id _ _ m
  refine ⟨_, hexp, ?_, ?_, ?_⟩
  · intro n hn hnpid
    have h1 : getNode (setNode g pid (expandedParent P children now)) n.id = some n := by
      rw [getNode_setNode_other g pid _ hpar_id n.id hnpid]
      exact getNode_of_mem_nodup g n hnd hn
    rw [getNode_map_of_id_preserved _ _ hids,
      getNode_append_left _ children n.id n h1, Option.map_some']
    rw [if_neg (by simp [hnpid])]
  · intro k hk
    have hkpid : k.id ≠ pid := fun h => hfresh k hk P hPmem (h.trans hPid.symm)
    have h0 : getNode (setNode g pid (expandedParent P children now)) k.id = none := by
      apply getNode_none_of_fresh
      intro m hm
      rcases setNode_ids_sub g pid _ hpar_id m hm with ⟨n, hn, hnid⟩
      rw [← hnid]
      exact fun hh => hfresh k hk n hn hh.symm
    rw [getNode_map_of_id_preserved _ _ hids,
      getNode_append_right _ children k.id h0,
      getNode_of_mem_nodup children k hknd hk, Option.map_some']
    rw [if_neg (by simp [hkpid])]
  · have h1 : getNode (setNode g pid (expandedParent P children now)) pid =
        some (expandedParent P children now) :=
      getNode_setNode_self g pid _ hpar_id P hP
    rw [getNode_map_of_id_preserved _ _ hids,
      getNode_append_left _ children pid _ h1, Option.map_some']
    rw [if_pos (by simp [hpar_id])]

/-- Witness for C3: expanding `X` into `[c1, c2]` in the two-node graph
`[X, D(dependsOn:[X])]`. -/
theorem C3_witness :
    (∃ g', expandNode [scenX, scenD] "X" [scenKid1, scenKid2] 5 = .ok g' ∧
      (∀ n ∈ [scenX, scenD], n.id ≠ "X" →
        getNode g' n.id = some (rewriteNode "X" "c2" n)) ∧
      (∀ k ∈ [scenKid1, scenKid2],
        getNode g' k.id = some (rewriteNode "X" "c2" k)) ∧
      getNode g' "X" = some (expandedParent scenX [scenKid1, scenKid2] 5)) ∧
    (getNode (expandState (expandNode [scenX, scenD] "X" [scenKid1, scenKid2] 5)) "D").map
      (fun n => n.dependsOn) = some ["c2"] :=
  C3_expandNode_spec [scenX, scenD] "X" [scenKid1, scenKid2] 5 scenX
    (by decide) (by decide) (by decide) (by decide) (by decide)

/-! ## C4 -/

/-- C4: `isStuck()` is true iff the DAG is not complete, `getReadyNodes()` is
empty and no node is Running; `isComplete()` is true iff no node is Pending or
Running. -/
theorem C4_isStuck_isComplete_spec (g : DagState) :
    (isStuck g = true ↔
      (¬ isComplete g = true ∧ getReadyNodes g = [] ∧
        ∀ n ∈ g, n.status ≠ .running)) ∧
    (isComplete g = true ↔ ∀ n ∈ g, n.status ≠ .pending ∧ n.status ≠ .running) := by
  constructor
  · rw [isStuck]
    split
    · next hc =>
      simp only [Bool.false_eq_true, false_iff, not_and]
      intro hnc
      exact absurd hc hnc
    · next hc =>
      simp only [Bool.and_eq_true, beq_iff_eq, List.length_eq_zero,
        List.filter_eq_nil_iff, Bool.not_eq_true, beq_eq_false_iff_ne]
      constructor
      · rintro ⟨hready, hrun⟩
        refine ⟨?_, hready, hrun⟩
        cases hcb : isComplete g with
        | true => exact absurd hcb hc
        | false => rfl
      · rintro ⟨_, hready, hrun⟩
        exact ⟨hready, hrun⟩
  · rw [isComplete]
    simp only [List.all_eq_true, Bool.not_eq_true', Bool.or_eq_false_iff,
      beq_eq_false_iff_ne]

/-! ## C6 -/

/-- C6: the resume reset maps every persisted Running node to Pending with its
start timestamp cleared, and leaves every node of any other status unchanged
(positionwise, so order and multiplicity are preserved). -/
theorem C6_resumeReset_spec (ns : List PhaseNode) (i : Nat) (n : PhaseNode)
    (h : ns.get? i = some n) :
    (n.status = .running →
      (resumeReset ns).get? i = some { n with status := .pending, startedAt := none }) ∧
    (n.status ≠ .running → (resumeReset ns).get? i = some n) := by
  constructor
  · intro hr
    rw [resumeReset, List.get?_map, h]
    simp [hr]
  · intro hr
    rw [resumeReset, List.get?_map, h]
    simp only [Option.map_some']
    congr 1
    rw [if_neg]
    simp only [beq_iff_eq]
    exact hr

/-- Witness for C6: a two-node snapshot with one Running and one Completed
node. -/
theorem C6_witness :
    (({ nodeRootA with status := .running } : PhaseNode).status = .running →
      (resumeReset [{ nodeRootA with status := .running }, { nodeB with status := .completed }]).get? 0 =
        some { nodeRootA with status := .pending, startedAt := none }) ∧
    (({ nodeRootA with status := .running } : PhaseNode).status ≠ .running →
      (resumeReset [{ nodeRootA with status := .running }, { nodeB with status := .completed }]).get? 0 =
        some { nodeRootA with status := .running }) :=
  C6_resumeReset_spec [{ nodeRootA with status := .running }, { nodeB with status := .completed }]
    0 { nodeRootA with status := .running } (by decide)

/-! ## C9 -/

/-- Substring test used to state what the stuck error message does (not)
carry. -/
def strContains (hay needle : String) : Bool :=
  hay.data.tails.any (fun t => needle.data.isPrefixOf t)

/-- A stuck state: `zqw` failed, `w` pending behind it, plus one completed and
one skipped node. -/
def stuckFailed : PhaseNode := { id := "zqw", status := .failed }

/-- Pending node whose only dependency failed. -/
def stuckDep : PhaseNode := { id := "w", dependsOn := ["zqw"] }

/-- A completed node in the stuck state. -/
def stuckDone : PhaseNode := { id := "d1", status := .completed }

/-- A skipped node in the stuck state. -/
def stuckSkip : PhaseNode := { id := "s1", status := .skipped }

/-- The stuck sample state. -/
def gStuck : DagState := [stuckFailed, stuckDep, stuckDone, stuckSkip]

/-- The exact message the loop throws on `gStuck`. -/
def gStuckMsg : String :=
  "Pipeline stuck: 1 pending, 1 failed, 0 running. No nodes are ready to execute."

/-- C9 counterexample: on a stuck state with one failed node `zqw`, one
completed and one skipped node, the error raised by the loop is a plain
`Error` whose message reports only the pending, failed and running counts —
it names neither the failed node's id nor the completed/skipped counts, so it
does not carry a full status-count snapshot or the failed ids. -/
theorem C9_counterexample :
    isStuck gStuck = true ∧
    (gStuck.filter (fun n => n.status == .failed)).map (fun n => n.id) = ["zqw"] ∧
    (getSummary gStuck).completed = 1 ∧
    (getSummary gStuck).skipped = 1 ∧
    stuckCheck gStuck = some gStuckMsg ∧
    strContains gStuckMsg "zqw" = false ∧
    strContains gStuckMsg "skipped" = false ∧
    strContains gStuckMsg "completed" = false := by
  decide

theorem summaryStep_foldl (l : List PhaseNode) : ∀ s : Summary,
    l.foldl summaryStep s =
      { total := s.total,
        pending := s.pending + (l.filter (fun n => n.status == .pending)).length,
        running := s.running + (l.filter (fun n => n.status == .running)).length,
        completed := s.completed + (l.filter (fun n => n.status == .completed)).length,
        failed := s.failed + (l.filter (fun n => n.status == .failed)).length,
        skipped := s.skipped + (l.filter (fun n => n.status == .skipped)).length } := by
  induction l with
  | nil => intro s; simp
  | cons a t ih =>
    intro s
    rw [List.foldl_cons, ih (summaryStep s a)]
    cases ha : a.status <;>
      simp [summaryStep, ha, List.filter_cons, Summary.mk.injEq] <;> omega

/-- The summary counters are exactly the per-status filter counts. -/
theorem getSummary_counts (g : DagState) :
    getSummary g =
      { total := g.length,
        pending := (g.filter (fun n => n.status == .pending)).length,
        running := (g.filter (fun n => n.status == .running)).length,
        completed := (g.filter (fun n => n.status == .completed)).length,
        failed := (g.filter (fun n => n.status == .failed)).length,
        skipped := (g.filter (fun n => n.status == .skipped)).length } := by
  rw [getSummary, summaryStep_foldl]
  simp

/-- C9 amended: whenever the loop observes `isStuck()` it aborts by raising a
fatal `Error` whose message reports the pending, failed and running counts of
the summary (the completed/skipped counts are only logged, and no failed ids
are attached); when the DAG is not stuck the check passes. -/
theorem C9_amended_stuck_error (g : DagState) :
    (isStuck g = true →
      stuckCheck g = some ("Pipeline stuck: " ++
        toString (g.filter (fun n => n.status == .pending)).length ++ " pending, " ++
        toString (g.filter (fun n => n.status == .failed)).length ++ " failed, " ++
        toString (g.filter (fun n => n.status == .running)).length ++
        " running. No nodes are ready to execute.")) ∧
    (isStuck g = false → stuckCheck g = none) := by
  constructor
  · intro h
    rw [stuckCheck, if_pos h, stuckMessage, getSummary_counts]
  · intro h
    rw [stuckCheck, if_neg (by rw [h]; exact Bool.false_ne_true)]

/-- Witness for the amended C9 at the stuck sample state and at a live
state. -/
theorem C9_amended_witness :
    stuckCheck gStuck = some ("Pipeline stuck: " ++
      toString (gStuck.filter (fun n => n.status == .pending)).length ++ " pending, " ++
      toString (gStuck.filter (fun n => n.status == .failed)).length ++ " failed, " ++
      toString (gStuck.filter (fun n => n.status == .running)).length ++
      " running. No nodes are ready to execute.") ∧
    stuckCheck sampleChain = none :=
  ⟨(C9_amended_stuck_error gStuck).1 (by decide),
   (C9_amended_stuck_error sampleChain).2 (by decide)⟩

/-! ## C10 -/

/-- C10 counterexample: expanding an existing node with an empty child list
does not throw when no other node depends on it — the call returns normally,
leaving the parent Running with an empty child list attached. -/
theorem C10_counterexample :
    expandNode [scenX] "X" [] 7 = .ok [expandedParent scenX [] 7] := rfl

/-- C10 amended: `expandNode(parentId, [])` throws (the `TypeError` from
reading `.id` of `undefined`) exactly when some node other than the parent
depends on `parentId`, and the thrown error leaves the parent already mutated
— children `[]` attached, status Running, start time set — with no rollback;
when no other node depends on `parentId` the call succeeds with the same
parent mutation. -/
theorem C10_expandNode_empty (g : DagState) (pid : String) (P : PhaseNode)
    (now : Nat) (hP : getNode g pid = some P) :
    ((∃ m ∈ g, m.id ≠ pid ∧ pid ∈ m.dependsOn) →
      expandNode g pid [] now =
        .error ("TypeError: Cannot read properties of undefined (reading 'id')",
          setNode g pid (expandedParent P [] now))) ∧
    ((∀ m ∈ g, m.id = pid ∨ pid ∉ m.dependsOn) →
      expandNode g pid [] now = .ok (setNode g pid (expandedParent P [] now))) ∧
    getNode (setNode g pid (expandedParent P [] now)) pid =
      some (expandedParent P [] now) := by
  obtain ⟨hPmem, hPid⟩ := getNode_eq_some g pid P hP
  have hpar_id : (expandedParent P [] now).id = pid := by
    rw [expandedParent_id, hPid]
  have hexp : expandNode g pid [] now =
      (if (setNode g pid (expandedParent P [] now)).any
          (fun m => !(m.id == pid) && m.dependsOn.any (fun d => d == pid)) then
        .error ("TypeError: Cannot read properties of undefined (reading 'id')",
          setNode g pid (expandedParent P [] now))
      else .ok (setNode g pid (expandedParent P [] now))) := by
    rw [expandNode, hP]
    rfl
  refine ⟨?_, ?_, getNode_setNode_self g pid _ hpar_id P hP⟩
  · rintro ⟨m, hm, hmid, hmdep⟩
    rw [hexp, if_pos]
    apply List.any_eq_true.mpr
    refine ⟨m, setNode_mem_other g pid _ m hm hmid, ?_⟩
    simp only [Bool.and_eq_true, Bool.not_eq_true', beq_eq_false_iff_ne]
    exact ⟨hmid, List.any_eq_true.mpr ⟨pid, hmdep, by simp⟩⟩
  · intro hnone
    rw [hexp, if_neg]
    intro hany
    obtain ⟨m', hm', hp'⟩ := List.any_eq_true.mp hany
    rw [setNode_eq_map] at hm'
    rcases List.mem_map.mp hm' with ⟨n, hn, hnm⟩
    simp only [Bool.and_eq_true, Bool.not_eq_true', beq_eq_false_iff_ne] at hp'
    obtain ⟨hmid', hdep'⟩ := hp'
    obtain ⟨d, hd, hdp⟩ := List.any_eq_true.mp hdep'
    have hdpid : d = pid := by simpa using hdp
    subst hdpid
    rcases hnone n hn with hnp | hnp
    · apply hmid'
      rw [← hnm, if_pos (by simp [hnp]), hpar_id]
    · have hmn : m' = n := by
        rw [← hnm]
        rw [← hnm] at hmid'
        split
        · next hh =>
          exfalso
          exact (by rw [if_pos hh, hpar_id] at hmid'; exact hmid' rfl)
        · rfl
      rw [hmn] at hd
      exact hnp hd

/-- Witness for the amended C10: in `[X, D(dependsOn:[X])]` the empty
expansion of `X` throws, and the parent mutation survives in the error
state. -/
theorem C10_witness :
    expandNode [scenX, scenD] "X" [] 7 =
      .error ("TypeError: Cannot read properties of undefined (reading 'id')",
        setNode [scenX, scenD] "X" (expandedParent scenX [] 7)) ∧
    getNode (setNode [scenX, scenD] "X" (expandedParent scenX [] 7)) "X" =
      some (expandedParent scenX [] 7) :=
  ⟨(C10_expandNode_empty [scenX, scenD] "X" scenX 7 (by decide)).1
      ⟨scenD, by decide, by decide, by decide⟩,
   (C10_expandNode_empty [scenX, scenD] "X" scenX 7 (by decide)).2.2⟩

/-! ## C5 — correctness of `validate` / `detectCycle`

`validate` is a total function of the embedding (it can only return its error
list, mirroring the source's "never throws" contract).  The development below
characterises each of its three components; the cycle component requires a
full correctness proof of the three-colour DFS. -/

/-- The cycle component of `validate`. -/
def cycleErrors (g : DagState) : List String :=
  match detectCycle g with
  | some e => [e]
  | none => []

theorem Reaches_tail {g : DagState} {a b c : String}
    (h : Reaches g a b) (e : Edge g b c) : Reaches g a c := by
  induction h with
  | single e0 => exact Reaches.head e0 (Reaches.single e)
  | head e0 _ ih => exact Reaches.head e0 (ih e)

/-- A cycle through `x` passes through one of `x`'s dependencies, which is
itself on a cycle. -/
theorem cycle_through_dep {g : DagState} {x : String} (h : Reaches g x x) :
    ∃ w, Edge g x w ∧ Reaches g w w := by
  cases h with
  | single e => exact ⟨x, e, Reaches.single e⟩
  | head e hr => exact ⟨_, e, Reaches_tail hr e⟩

theorem edge_mem_depsOf {g : DagState} {a b : String} (h : Edge g a b) :
    b ∈ depsOf g a := by
  obtain ⟨n, hn, hb⟩ := h
  rw [depsOf, hn]
  exact hb

theorem depsOf_edge {g : DagState} {a b : String} (h : b ∈ depsOf g a) :
    Edge g a b := by
  rw [depsOf] at h
  cases hn : getNode g a with
  | none => rw [hn] at h; cases h
  | some n => rw [hn] at h; exact ⟨n, hn, h⟩

/-- The grey stack is a chain of edges from each entry to the one pushed
after it, ending in the node currently being visited. -/
def VChain (g : DagState) : List String → String → Prop
  | [], _ => True
  | h :: t, x => Edge g h x ∧ VChain g t h

theorem VChain_mem {g : DagState} : ∀ {vis : List String} {x : String},
    VChain g vis x → ∀ a ∈ vis, Reaches g a x := by
  intro vis
  induction vis with
  | nil => intro x _ a ha; cases ha
  | cons h t ih =>
    intro x hch a ha
    rcases List.mem_cons.mp ha with rfl | hat
    · exact Reaches.single hch.1
    · exact Reaches_tail (ih hch.2 a hat) hch.1

/-- Monotonicity of the black set through one DFS call. -/
theorem dfsGo_mono (g : DagState) : ∀ (fuel : Nat) (arg : String ⊕ List String)
    (visited visiting : List String) (r : Option String) (v : List String),
    dfsGo g fuel arg visited visiting = some (r, v) →
    ∀ a ∈ visited, a ∈ v := by
  intro fuel
  induction fuel with
  | zero =>
    intro arg visited visiting r v h
    rw [dfsGo] at h
    cases h
  | succ f ihf =>
    intro arg visited visiting r v h
    match arg with
    | .inl x =>
      rw [dfsGo] at h
      by_cases h1 : visited.contains x = true
      · rw [if_pos h1] at h
        cases h
        exact fun a ha => ha
      · rw [if_neg h1] at h
        by_cases h2 : visiting.contains x = true
        · rw [if_pos h2] at h
          cases h
          exact fun a ha => ha
        · rw [if_neg h2] at h
          cases hd : dfsGo g f (.inr (depsOf g x)) visited (x :: visiting) with
          | none => rw [hd] at h; cases h
          | some p =>
            rcases p with ⟨r1, v1⟩
            rw [hd] at h
            have hm := ihf _ visited (x :: visiting) r1 v1 hd
            cases r1 with
            | some e => cases h; exact hm
            | none =>
              cases h
              exact fun a ha => List.mem_cons_of_mem _ (hm a ha)
    | .inr [] =>
      rw [dfsGo] at h
      cases h
      exact fun a ha => ha
    | .inr (d :: ds) =>
      rw [dfsGo] at h
      cases hv : dfsGo g f (.inl d) visited visiting with
      | none => rw [hv] at h; cases h
      | some p =>
        rcases p with ⟨r1, v1⟩
        rw [hv] at h
        have hm1 := ihf _ visited visiting r1 v1 hv
        cases r1 with
        | some e => cases h; exact hm1
        | none => exact fun a ha => ihf _ v1 visiting r v h a (hm1 a ha)

/-- A successful (`none`) visit blackens the visited node. -/
theorem dfsGo_visits (g : DagState) (fuel : Nat) (x : String)
    (visited visiting v : List String)
    (h : dfsGo g fuel (.inl x) visited visiting = some (none, v)) : x ∈ v := by
  cases fuel with
  | zero => rw [dfsGo] at h; cases h
  | succ f =>
    rw [dfsGo] at h
    by_cases h1 : visited.contains x = true
    · rw [if_pos h1] at h
      cases h
      simpa using h1
    · rw [if_neg h1] at h
      by_cases h2 : visiting.contains x = true
      · rw [if_pos h2] at h
        cases h
      · rw [if_neg h2] at h
        cases hd : dfsGo g f (.inr (depsOf g x)) visited (x :: visiting) with
        | none => rw [hd] at h; cases h
        | some p =>
          rcases p with ⟨r1, v1⟩
          rw [hd] at h
          cases r1 with
          | some e => cases h
          | none =>
            cases h
            exact List.mem_cons_self _ _

theorem mapM_asStr (l : List String) : optMapM asStr (l.map Json.str) = some l := by
  induction l with
  | nil => rfl
  | cons a t ih => simp [optMapM, ih, asStr]

theorem asStrList_roundtrip (l : List String) :
    asStrList (Json.arr (l.map Json.str)) = some l := by
  simp [asStrList, mapM_asStr]

theorem statusOfString_roundtrip (s : PhaseStatus) :
    statusOfString (statusToString s) = some s := by
  cases s <;> rfl

theorem decodeNode_encodeNode (n : PhaseNode) : decodeNode (encodeNode n) = some n := by
  rcases n with ⟨id, ty, title, descr, deps, status, outA, inA, sAt, cAt, err, ch⟩
  rcases sAt with _ | sa <;> rcases cAt with _ | ca <;>
    rcases err with _ | e <;> rcases ch with _ | cl <;>
    simp [encodeNode, decodeNode, optField, getField, List.find?, asStr, asNum,
      asStrList, mapM_asStr, statusOfString_roundtrip]

theorem decodeArtifact_encodeArtifact (a : Artifact) :
    decodeArtifact (encodeArtifact a) = some a := by
  rcases a with ⟨id, ty, fmt, p, pb, cAt⟩
  rcases cAt with _ | c <;>
    simp [encodeArtifact, decodeArtifact, optField, getField, List.find?, asStr, asNum]

theorem mapM_decodeNode (ns : List PhaseNode) :
    optMapM decodeNode (ns.map encodeNode) = some ns := by
  induction ns with
  | nil => rfl
  | cons a t ih => simp [optMapM, ih, decodeNode_encodeNode]

theorem mapM_decodeArtifact (arts : List Artifact) :
    optMapM decodeArtifact (arts.map encodeArtifact) = some arts := by
  induction arts with
  | nil => rfl
  | cons a t ih => simp [optMapM, ih, decodeArtifact_encodeArtifact]

theorem decodeState_encodeState (s : PipelineState) :
    decodeState (encodeState s) = some s := by
  rcases s with ⟨pid, mode, it, ca, ua, ns, arts⟩
  simp [encodeState, decodeState, getField, List.find?, asStr, asNum,
    mapM_decodeNode, mapM_decodeArtifact]

/-- Soundness of the DFS: a reported message names a node that lies on a
dependency cycle. -/
theorem dfsGo_sound (g : DagState) : ∀ (fuel : Nat) (arg : String ⊕ List String)
    (visited visiting : List String) (msg : String) (v : List String),
    dfsGo g fuel arg visited visiting = some (some msg, v) →
    (∀ x, arg = .inl x → VChain g visiting x) →
    (∀ ds, arg = .inr ds → ∀ d ∈ ds, VChain g visiting d) →
    ∃ y, msg = cycleMsg y ∧ Reaches g y y := by
  intro fuel
  induction fuel with
  | zero =>
    intro arg visited visiting msg v h _ _
    rw [dfsGo] at h
    cases h
  | succ f ihf =>
    intro arg visited visiting msg v h hchl hchr
    match arg with
    | .inl x =>
      have hch := hchl x rfl
      rw [dfsGo] at h
      by_cases h1 : visited.contains x = true
      · rw [if_pos h1] at h; simp at h
      · rw [if_neg h1] at h
        by_cases h2 : visiting.contains x = true
        · rw [if_pos h2] at h
          have hxin : x ∈ visiting := by simpa using h2
          have hmsg : msg = cycleMsg x := by cases h; rfl
          exact ⟨x, hmsg, VChain_mem hch x hxin⟩
        · rw [if_neg h2] at h
          cases hd : dfsGo g f (.inr (depsOf g x)) visited (x :: visiting) with
          | none => rw [hd] at h; cases h
          | some p =>
            rcases p with ⟨r1, v1⟩
            rw [hd] at h
            cases r1 with
            | some e =>
              have he : e = msg := by cases h; rfl
              subst he
              refine ihf _ visited (x :: visiting) e v1 hd
                (fun y hy => by cases hy) ?_
              intro ds hds d hdmem
              have hds' : ds = depsOf g x := by
                cases hds
                rfl
              subst hds'
              exact ⟨depsOf_edge hdmem, hch⟩
            | none => simp at h
    | .inr [] =>
      rw [dfsGo] at h
      simp at h
    | .inr (d :: ds) =>
      rw [dfsGo] at h
      cases hv : dfsGo g f (.inl d) visited visiting with
      | none => rw [hv] at h; cases h
      | some p =>
        rcases p with ⟨r1, v1⟩
        rw [hv] at h
        cases r1 with
        | some e =>
          have he : e = msg := by cases h; rfl
          subst he
          exact ihf _ visited visiting e v1 hv
            (fun y hy => by
              cases hy
              exact hchr (d :: ds) rfl d (List.mem_cons_self d ds))
            (fun ds' hds' => by cases hds')
        | none =>
          exact ihf _ v1 visiting msg v h
            (fun y hy => by cases hy)
            (fun ds' hds' d' hd' => by
              cases hds'
              exact hchr (d :: ds) rfl d' (List.mem_cons_of_mem d hd'))

/-- No element of `S` lies on a dependency cycle. -/
def NoCyc (g : DagState) (S : List String) : Prop :=
  ∀ a ∈ S, ¬ Reaches g a a

/-- Completeness invariant of the DFS: a successful (`none`) run blackens
only nodes that are on no cycle, and blackens every dependency it was asked
to visit. -/
theorem dfsGo_complete (g : DagState) : ∀ (fuel : Nat) (arg : String ⊕ List String)
    (visited visiting : List String) (v : List String),
    dfsGo g fuel arg visited visiting = some (none, v) →
    NoCyc g visited →
    NoCyc g v ∧ (∀ ds, arg = .inr ds → ∀ d ∈ ds, d ∈ v) := by
  intro fuel
  induction fuel with
  | zero =>
    intro arg visited visiting v h _
    rw [dfsGo] at h
    cases h
  | succ f ihf =>
    intro arg visited visiting v h hnc
    match arg with
    | .inl x =>
      rw [dfsGo] at h
      by_cases h1 : visited.contains x = true
      · rw [if_pos h1] at h
        cases h
        exact ⟨hnc, fun ds hds => by cases hds⟩
      · rw [if_neg h1] at h
        by_cases h2 : visiting.contains x = true
        · rw [if_pos h2] at h; simp at h
        · rw [if_neg h2] at h
          cases hd : dfsGo g f (.inr (depsOf g x)) visited (x :: visiting) with
          | none => rw [hd] at h; cases h
          | some p =>
            rcases p with ⟨r1, v1⟩
            rw [hd] at h
            cases r1 with
            | some e => simp at h
            | none =>
              have hvv : v = x :: v1 := by cases h; rfl
              subst hvv
              obtain ⟨hnc1, hds1⟩ := ihf _ visited (x :: visiting) v1 hd hnc
              refine ⟨?_, fun ds hds => by cases hds⟩
              intro a ha
              rcases List.mem_cons.mp ha with rfl | hav
              · intro hr
                obtain ⟨w, he, hww⟩ := cycle_through_dep hr
                exact hnc1 w (hds1 (depsOf g a) rfl w (edge_mem_depsOf he)) hww
              · exact hnc1 a hav
    | .inr [] =>
      rw [dfsGo] at h
      cases h
      exact ⟨hnc, fun ds hds => by cases hds; exact fun d hd => by cases hd⟩
    | .inr (d :: ds) =>
      rw [dfsGo] at h
      cases hv : dfsGo g f (.inl d) visited visiting with
      | none => rw [hv] at h; cases h
      | some p =>
        rcases p with ⟨r1, v1⟩
        rw [hv] at h
        cases r1 with
        | some e => simp at h
        | none =>
          have hnc1 := (ihf _ visited visiting v1 hv hnc).1
          have hd1 : d ∈ v1 := dfsGo_visits g f d visited visiting v1 hv
          obtain ⟨hncv, hdsv⟩ := ihf _ v1 visiting v h hnc1
          refine ⟨hncv, ?_⟩
          intro ds' hds' d' hd'
          cases hds'
          rcases List.mem_cons.mp hd' with rfl | hd''
          · exact dfsGo_mono g f _ v1 visiting none v h d' hd1
          · exact hdsv ds rfl d' hd''

/-- Every id the DFS can ever see: node ids and dependency targets. -/
def allIds (g : DagState) : List String :=
  (g.map (fun n => n.id) ++ g.flatMap (fun n => n.dependsOn)).dedup

theorem depsOf_subset_allIds (g : DagState) (x d : String) (hd : d ∈ depsOf g x) :
    d ∈ allIds g := by
  rw [depsOf] at hd
  cases hn : getNode g x with
  | none => rw [hn] at hd; cases hd
  | some n =>
    rw [hn] at hd
    obtain ⟨hnmem, _⟩ := getNode_eq_some g x n hn
    exact List.mem_dedup.mpr (List.mem_append.mpr
      (Or.inr (List.mem_flatMap.mpr ⟨n, hnmem, hd⟩)))

theorem filter_erase_length_lt (l : List String) (p : String → Bool) (x : String)
    (hx : x ∈ l) (hp : p x = true) :
    (l.filter (fun i => !(i == x) && p i)).length < (l.filter p).length := by
  have hsub : List.Sublist (l.filter (fun i => !(i == x) && p i)) (l.filter p) :=
    List.monotone_filter_right l (fun a ha => by
      simp only [Bool.and_eq_true] at ha
      exact ha.2)
  refine Nat.lt_of_le_of_ne hsub.length_le ?_
  intro heq
  have heql := hsub.eq_of_length heq
  have hxin : x ∈ l.filter p := List.mem_filter.mpr ⟨hx, hp⟩
  rw [← heql] at hxin
  have := (List.mem_filter.mp hxin).2
  simp at this

/-- The number of ids not yet on the grey stack. -/
def phiL (g : DagState) (visiting : List String) : Nat :=
  ((allIds g).filter (fun i => !(visiting.contains i))).length

theorem depsOf_length_le (g : DagState) (x : String) :
    (depsOf g x).length ≤ depsBound g := by
  rw [depsOf]
  cases hn : getNode g x with
  | none => exact Nat.zero_le _
  | some n =>
    obtain ⟨hnmem, _⟩ := getNode_eq_some g x n hn
    exact List.single_le_sum (fun a _ => Nat.zero_le a) _
      (List.mem_map_of_mem (fun n => n.dependsOn.length) hnmem)

theorem phiL_push_lt (g : DagState) (visiting : List String) (x : String)
    (hxin : x ∈ allIds g) (hxnot : x ∉ visiting) :
    phiL g (x :: visiting) < phiL g visiting := by
  rw [phiL, phiL]
  have hcongr : (allIds g).filter (fun i => !((x :: visiting).contains i)) =
      (allIds g).filter (fun i => !(i == x) && !(visiting.contains i)) := by
    apply List.filter_congr
    intro i _
    by_cases hix : i = x
    · simp [hix, List.contains_cons]
    · simp [hix, List.contains_cons]
  rw [hcongr]
  have hdec := filter_erase_length_lt (allIds g)
    (fun i => !(visiting.contains i)) x hxin (by simpa using hxnot)
  dsimp only at hdec
  exact hdec

/-- The fuel supplied by `detectCycle` is never exhausted: the potential
`(depsBound + 2) * phiL (+ pending-list size)` strictly decreases at every
step of the DFS. -/
theorem dfsGo_no_exhaustion (g : DagState) : ∀ (fuel : Nat)
    (arg : String ⊕ List String) (visited visiting : List String),
    (∀ x, arg = .inl x → x ∈ allIds g) →
    (∀ ds, arg = .inr ds → ∀ d ∈ ds, d ∈ allIds g) →
    (∀ a ∈ visiting, a ∈ allIds g) → visiting.Nodup →
    (match arg with
     | .inl _ => (depsBound g + 2) * phiL g visiting
     | .inr ds => (depsBound g + 2) * phiL g visiting + ds.length + 1) < fuel →
    dfsGo g fuel arg visited visiting ≠ none := by
  intro fuel
  induction fuel with
  | zero =>
    intro arg visited visiting _ _ _ _ hlt
    exact absurd (Nat.lt_of_le_of_lt (Nat.zero_le _) hlt) (Nat.lt_irrefl 0)
  | succ f ihf =>
    intro arg visited visiting hl hr hvsub hvnd hlt
    match arg with
    | .inl x =>
      have hxin := hl x rfl
      rw [dfsGo]
      by_cases h1 : visited.contains x = true
      · rw [if_pos h1]; exact Option.some_ne_none _
      · rw [if_neg h1]
        by_cases h2 : visiting.contains x = true
        · rw [if_pos h2]; exact Option.some_ne_none _
        · rw [if_neg h2]
          have hxnot : x ∉ visiting := by simpa using h2
          have hdec := phiL_push_lt g visiting x hxin hxnot
          have hlt0 : (depsBound g + 2) * phiL g visiting < f + 1 := by
            simpa using hlt
          have hL1 : 1 ≤ phiL g visiting := by omega
          obtain ⟨L2, hL2⟩ : ∃ k, phiL g visiting = k + 1 :=
            ⟨phiL g visiting - 1, by omega⟩
          have hlt' : (depsBound g + 2) * phiL g (x :: visiting) +
              (depsOf g x).length + 1 < f := by
            have hmul : (depsBound g + 2) * phiL g (x :: visiting) ≤
                (depsBound g + 2) * L2 :=
              Nat.mul_le_mul_left _ (by omega)
            have hexp : (depsBound g + 2) * phiL g visiting =
                (depsBound g + 2) * L2 + (depsBound g + 2) := by
              rw [hL2, Nat.mul_succ]
            have hdp := depsOf_length_le g x
            omega
          have hdd := ihf (.inr (depsOf g x)) visited (x :: visiting)
            (fun y hy => by cases hy)
            (fun ds hds => by cases hds; exact fun d hd => depsOf_subset_allIds g x d hd)
            (fun a ha => by
              rcases List.mem_cons.mp ha with rfl | ha'
              · exact hxin
              · exact hvsub a ha')
            (List.nodup_cons.mpr ⟨hxnot, hvnd⟩)
            (by simpa using hlt')
          cases hdval : dfsGo g f (.inr (depsOf g x)) visited (x :: visiting) with
          | none => exact absurd hdval hdd
          | some p =>
            rcases p with ⟨r1, v1⟩
            cases r1 with
            | some e => exact Option.some_ne_none _
            | none => exact Option.some_ne_none _
    | .inr [] =>
      rw [dfsGo]
      exact Option.some_ne_none _
    | .inr (d :: ds) =>
      have hlt0 : (depsBound g + 2) * phiL g visiting + (d :: ds).length + 1 < f + 1 := by
        simpa using hlt
      rw [List.length_cons] at hlt0
      rw [dfsGo]
      have hvd := ihf (.inl d) visited visiting
        (fun y hy => by cases hy; exact hr (d :: ds) rfl d (List.mem_cons_self d ds))
        (fun ds' hds' => by cases hds')
        hvsub hvnd
        (by simp only []; omega)
      cases hv : dfsGo g f (.inl d) visited visiting with
      | none => exact absurd hv hvd
      | some p =>
        rcases p with ⟨r1, v1⟩
        cases r1 with
        | some e => exact Option.some_ne_none _
        | none =>
          exact ihf (.inr ds) v1 visiting
            (fun y hy => by cases hy)
            (fun ds' hds' => by
              cases hds'
              exact fun d' hd' => hr (d :: ds) rfl d' (List.mem_cons_of_mem d hd'))
            hvsub hvnd
            (by simp only []; omega)

theorem detectCycleAux_sound (g : DagState) (fuel : Nat) :
    ∀ (ids visited : List String) (msg : String),
      detectCycleAux g fuel ids visited = some (some msg) →
      ∃ y, msg = cycleMsg y ∧ Reaches g y y := by
  intro ids
  induction ids with
  | nil =>
    intro visited msg h
    rw [detectCycleAux] at h
    simp at h
  | cons nid rest ih =>
    intro visited msg h
    rw [detectCycleAux] at h
    cases hv : dfsGo g fuel (.inl nid) visited [] with
    | none => rw [hv] at h; cases h
    | some p =>
      rcases p with ⟨r1, v1⟩
      rw [hv] at h
      cases r1 with
      | some e =>
        have he : e = msg := by cases h; rfl
        subst he
        exact dfsGo_sound g fuel (.inl nid) visited [] e v1 hv
          (fun x hx => by cases hx; trivial)
          (fun ds hds => by cases hds)
      | none => exact ih v1 msg h

theorem detectCycleAux_complete (g : DagState) (fuel : Nat) :
    ∀ (ids visited : List String),
      detectCycleAux g fuel ids visited = some none →
      NoCyc g visited → ∀ x ∈ ids, ¬ Reaches g x x := by
  intro ids
  induction ids with
  | nil => intro visited _ _ x hx; cases hx
  | cons nid rest ih =>
    intro visited h hnc x hx
    rw [detectCycleAux] at h
    cases hv : dfsGo g fuel (.inl nid) visited [] with
    | none => rw [hv] at h; cases h
    | some p =>
      rcases p with ⟨r1, v1⟩
      rw [hv] at h
      cases r1 with
      | some e => simp at h
      | none =>
        have hnc1 := (dfsGo_complete g fuel (.inl nid) visited [] v1 hv hnc).1
        have hmem : nid ∈ v1 := dfsGo_visits g fuel nid visited [] v1 hv
        rcases List.mem_cons.mp hx with rfl | hx'
        · exact hnc1 x hmem
        · exact ih v1 h hnc1 x hx'

theorem detectCycleAux_no_exhaustion (g : DagState) (fuel : Nat)
    (hfuel : (depsBound g + 2) * (allIds g).length < fuel) :
    ∀ (ids visited : List String), (∀ x ∈ ids, x ∈ allIds g) →
      detectCycleAux g fuel ids visited ≠ none := by
  have hphi : phiL g [] = (allIds g).length := by
    rw [phiL]
    have hfe : List.filter (fun i => !(([] : List String).contains i)) (allIds g) =
        allIds g := List.filter_eq_self.mpr (fun a _ => rfl)
    rw [hfe]
  intro ids
  induction ids with
  | nil =>
    intro visited _
    rw [detectCycleAux]
    exact Option.some_ne_none _
  | cons nid rest ih =>
    intro visited hsub
    rw [detectCycleAux]
    cases hv : dfsGo g fuel (.inl nid) visited [] with
    | none =>
      refine absurd hv (dfsGo_no_exhaustion g fuel (.inl nid) visited []
        (fun x hx => by cases hx; exact hsub nid (List.mem_cons_self nid rest))
        (fun ds hds => by cases hds)
        (fun a ha => by cases ha)
        List.nodup_nil ?_)
      simp only []
      rw [hphi]
      exact hfuel
    | some p =>
      rcases p with ⟨r1, v1⟩
      cases r1 with
      | some e => exact Option.some_ne_none _
      | none => exact ih v1 (fun x hx => hsub x (List.mem_cons_of_mem nid hx))

theorem dagFuel_gt (g : DagState) :
    (depsBound g + 2) * (allIds g).length < dagFuel g := by
  rw [dagFuel]
  have h1 := List.Sublist.length_le (List.dedup_sublist
    (g.map (fun n => n.id) ++ g.flatMap (fun n => n.dependsOn)))
  rw [List.length_append, List.length_map, List.length_flatMap] at h1
  have hc : (List.map (List.length ∘ fun n => n.dependsOn) g).sum = depsBound g := rfl
  rw [hc] at h1
  have h2 : (allIds g).length ≤ g.length + depsBound g := by
    rw [allIds]
    exact h1
  have h3 : (depsBound g + 2) * (allIds g).length ≤
      (depsBound g + 2) * (g.length + depsBound g) :=
    Nat.mul_le_mul_left _ h2
  omega

theorem node_ids_subset_allIds (g : DagState) (x : String)
    (hx : x ∈ g.map (fun n => n.id)) : x ∈ allIds g :=
  List.mem_dedup.mpr (List.mem_append.mpr (Or.inl hx))

/-- `detectCycle` soundness at the top level. -/
theorem detectCycle_sound (g : DagState) (msg : String)
    (h : detectCycle g = some msg) : ∃ y, msg = cycleMsg y ∧ Reaches g y y := by
  rw [detectCycle] at h
  cases ha : detectCycleAux g (dagFuel g) (g.map (fun n => n.id)) [] with
  | none => rw [ha] at h; cases h
  | some r =>
    rw [ha] at h
    cases r with
    | none => cases h
    | some e =>
      have he : e = msg := by cases h; rfl
      subst he
      exact detectCycleAux_sound g (dagFuel g) (g.map (fun n => n.id)) [] e ha

/-- `detectCycle` completeness at the top level. -/
theorem detectCycle_complete (g : DagState) (x : String) (hx : Reaches g x x) :
    ∃ msg, detectCycle g = some msg := by
  have hedge : ∃ b, Edge g x b := by
    cases hx with
    | single e => exact ⟨_, e⟩
    | head e _ => exact ⟨_, e⟩
  obtain ⟨b, n, hn, _⟩ := hedge
  obtain ⟨hnmem, hnid⟩ := getNode_eq_some g x n hn
  have hxid : x ∈ g.map (fun n => n.id) := hnid ▸ List.mem_map_of_mem _ hnmem
  have haux := detectCycleAux_no_exhaustion g (dagFuel g) (dagFuel_gt g)
    (g.map (fun n => n.id)) []
    (fun y hy => node_ids_subset_allIds g y hy)
  cases ha : detectCycleAux g (dagFuel g) (g.map (fun n => n.id)) [] with
  | none => exact absurd ha haux
  | some r =>
    cases r with
    | some e => exact ⟨e, by rw [detectCycle, ha]⟩
    | none =>
      exact absurd hx (detectCycleAux_complete g (dagFuel g)
        (g.map (fun n => n.id)) [] ha (fun a ha' => by cases ha') x hxid)

theorem getNode_eq_none_iff (g : DagState) (x : String) :
    getNode g x = none ↔ ∀ m ∈ g, m.id ≠ x := by
  rw [getNode, List.find?_eq_none]
  constructor
  · intro h m hm
    have := h m hm
    simpa using this
  · intro h m hm
    simp [h m hm]

theorem missingDepErrors_mem (g : DagState) (msg : String) :
    msg ∈ missingDepErrors g ↔
      ∃ n ∈ g, ∃ d ∈ n.dependsOn, getNode g d = none ∧
        msg = "Node \"" ++ n.id ++ "\" depends on non-existent node \"" ++ d ++ "\"" := by
  rw [missingDepErrors]
  simp only [List.mem_flatMap, List.mem_map, List.mem_filter]
  constructor
  · rintro ⟨n, hn, d, ⟨hd, hcond⟩, rfl⟩
    refine ⟨n, hn, d, hd, ?_, rfl⟩
    rw [getNode_eq_none_iff]
    intro m hm heq
    have hfalse : g.any (fun m => m.id == d) = true :=
      List.any_eq_true.mpr ⟨m, hm, by simp [heq]⟩
    rw [hfalse] at hcond
    cases hcond
  · rintro ⟨n, hn, d, hd, hnone, rfl⟩
    refine ⟨n, hn, d, ⟨hd, ?_⟩, rfl⟩
    rw [getNode_eq_none_iff] at hnone
    cases hany : g.any (fun m => m.id == d) with
    | false => rfl
    | true =>
      obtain ⟨m, hm, hmd⟩ := List.any_eq_true.mp hany
      exact absurd (beq_iff_eq.mp hmd) (hnone m hm)

theorem rootErrors_of_no_roots (g : DagState) (hne : g ≠ [])
    (h : ∀ n ∈ g, n.dependsOn ≠ []) :
    rootErrors g = ["DAG has no root nodes (all nodes have dependencies)"] := by
  rw [rootErrors, if_pos]
  have hfil : g.filter (fun n => n.dependsOn.isEmpty) = [] :=
    List.filter_eq_nil_iff.mpr (fun n hn => by
      simp only [List.isEmpty_iff]
      exact h n hn)
  rw [hfil]
  simp [List.length_pos.mpr hne]

theorem rootErrors_of_root (g : DagState) (h : ∃ n ∈ g, n.dependsOn = []) :
    rootErrors g = [] := by
  rw [rootErrors, if_neg]
  obtain ⟨n, hn, hdeps⟩ := h
  have hmem : n ∈ g.filter (fun n => n.dependsOn.isEmpty) :=
    List.mem_filter.mpr ⟨hn, by simp [hdeps]⟩
  intro hcond
  simp only [Bool.and_eq_true, beq_iff_eq, List.length_eq_zero] at hcond
  rw [hcond.1] at hmem
  cases hmem

/-- C5: `validate` is a total function (the embedding of "never throws") that
returns exactly the integrity violations: its output is the concatenation of
the dangling-reference messages (one per dependency id that resolves to no
node, characterised exactly), the no-root error (present iff the node set is
non-empty and no node has an empty dependency list), and the cycle component,
for which the three-colour DFS is proved sound (any reported message names a
node on a dependency cycle) and complete (a cycle always produces a report).
Consequently an acyclic node set with valid references and at least one root
validates to the empty list. -/
theorem C5_validate_spec (g : DagState) :
    validate g = missingDepErrors g ++ rootErrors g ++ cycleErrors g ∧
    (∀ msg, msg ∈ missingDepErrors g ↔
      ∃ n ∈ g, ∃ d ∈ n.dependsOn, getNode g d = none ∧
        msg = "Node \"" ++ n.id ++ "\" depends on non-existent node \"" ++ d ++ "\"") ∧
    ((g ≠ [] ∧ ∀ n ∈ g, n.dependsOn ≠ []) →
      rootErrors g = ["DAG has no root nodes (all nodes have dependencies)"]) ∧
    ((∃ n ∈ g, n.dependsOn = []) → rootErrors g = []) ∧
    (∀ msg, detectCycle g = some msg → ∃ y, msg = cycleMsg y ∧ Reaches g y y) ∧
    ((∃ x, Reaches g x x) → ∃ msg, detectCycle g = some msg) ∧
    ((∀ x, ¬ Reaches g x x) →
      (∀ n ∈ g, ∀ d ∈ n.dependsOn, ∃ m, getNode g d = some m) →
      (∃ n ∈ g, n.dependsOn = []) →
      validate g = []) := by
  refine ⟨rfl, missingDepErrors_mem g, ?_, rootErrors_of_root g,
    detectCycle_sound g, ?_, ?_⟩
  · rintro ⟨h1, h2⟩
    exact rootErrors_of_no_roots g h1 h2
  · rintro ⟨x, hx⟩
    exact detectCycle_complete g x hx
  · intro hacyc hrefs hroot
    have hmiss : missingDepErrors g = [] := by
      rw [List.eq_nil_iff_forall_not_mem]
      intro msg hmsg
      obtain ⟨n, hn, d, hd, hnone, _⟩ := (missingDepErrors_mem g msg).mp hmsg
      obtain ⟨m, hm⟩ := hrefs n hn d hd
      rw [hnone] at hm
      cases hm
    have hroot' : rootErrors g = [] := rootErrors_of_root g hroot
    have hcyc : detectCycle g = none := by
      cases hd : detectCycle g with
      | none => rfl
      | some msg =>
        obtain ⟨y, _, hyy⟩ := detectCycle_sound g msg hd
        exact absurd hyy (hacyc y)
    rw [validate, hmiss, hroot', hcyc]
    rfl

/-- A two-node dependency cycle. -/
def cycX : PhaseNode := { id := "x", dependsOn := ["y"] }

/-- The other half of the cycle. -/
def cycY : PhaseNode := { id := "y", dependsOn := ["x"] }

/-- Cyclic sample state. -/
def gCyc : DagState := [cycX, cycY]

/-- Witness for C5: the valid sample chain validates to `[]`, and the cyclic
sample produces the cycle error naming `x`. -/
theorem C5_witness : validate sampleChain = [] ∧ cycleMsg "x" ∈ validate gCyc := by
  constructor
  · apply (C5_validate_spec sampleChain).2.2.2.2.2.2
    · intro x hx
      obtain ⟨msg, hmsg⟩ := (C5_validate_spec sampleChain).2.2.2.2.2.1 ⟨x, hx⟩
      rw [show detectCycle sampleChain = none from rfl] at hmsg
      cases hmsg
    · intro n hn d hd
      have hn' : n = { nodeRootA with status := .completed } ∨ n = nodeB := by
        simpa [sampleChain] using hn
      rcases hn' with rfl | rfl
      · cases hd
      · have hd' : d = "a" := by simpa [nodeB] using hd
        subst hd'
        exact ⟨{ nodeRootA with status := .completed }, by decide⟩
    · exact ⟨{ nodeRootA with status := .completed }, by decide, rfl⟩
  · rw [(C5_validate_spec gCyc).1]
    refine List.mem_append.mpr (Or.inr ?_)
    rw [show cycleErrors gCyc = [cycleMsg "x"] from rfl]
    exact List.mem_singleton.mpr rfl

/-- C8: saving the pipeline state and loading it back yields a non-null
snapshot whose node and artifact collections equal the saved state's
collections (ids, statuses, dependencies, timestamps, children and all other
fields); only `updatedAt` is re-stamped by `save`, exactly as the source
does before serialising. -/
theorem C8_save_load_roundtrip (state : PipelineState) (now : Nat) :
    ∃ s', loadPipelineState (some (savePipelineState state now)) = some s' ∧
      s'.nodes = state.nodes ∧ s'.artifacts = state.artifacts ∧
      s' = { state with updatedAt := now } := by
  refine ⟨{ state with updatedAt := now }, ?_, rfl, rfl, rfl⟩
  rw [loadPipelineState, savePipelineState, decodeState_encodeState]
/-! ## C7 -/

/-- The fired-trigger list of a `maybeExpandDAG` run (a throw aborts the
sweep, so an error reports nothing). -/
def sweepFired (r : Except (String × DagState) (DagState × List String)) : List String :=
  match r with
  | .ok (_, f) => f
  | .error _ => []

/-- The resulting state of a `maybeExpandDAG` run (mutations survive a
throw). -/
def sweepState (r : Except (String × DagState) (DagState × List String)) : DagState :=
  match r with
  | .ok (s, _) => s
  | .error (_, s) => s

theorem getNode_mapSet_ne (h : DagState) (k : PhaseNode) (T : String)
    (hk : k.id ≠ T) : getNode (mapSet h k) T = getNode h T := by
  rw [mapSet]
  split
  · rw [getNode_map_of_id_preserved h _ (fun m => by split <;> simp_all [beq_iff_eq])]
    cases hg : getNode h T with
    | none => rfl
    | some m =>
      obtain ⟨hmmem, hmid⟩ := getNode_eq_some h T m hg
      rw [Option.map_some']
      congr 1
      rw [if_neg ?_]
      intro hc
      have hme : m.id = k.id := beq_iff_eq.mp hc
      rw [hmid] at hme
      exact hk hme.symm
  · cases hg : getNode h T with
    | none =>
      rw [getNode_append_right h [k] T hg, getNode_cons, if_neg (by simp [hk]), getNode_nil]
    | some m => exact getNode_append_left h [k] T m hg

theorem getNode_foldl_mapSet_ne (ks : List PhaseNode) :
    ∀ (h : DagState) (T : String), (∀ k ∈ ks, k.id ≠ T) →
    getNode (ks.foldl mapSet h) T = getNode h T := by
  induction ks with
  | nil => intro h T _; rfl
  | cons k ks' ih =>
    intro h T hk
    rw [List.foldl_cons, ih (mapSet h k) T (fun k' hk' => hk k' (List.mem_cons_of_mem k hk')),
      getNode_mapSet_ne h k T (hk k (List.mem_cons_self k ks'))]

/-- A successful `expandNode` does not change the status stored under any id
other than the parent's and the inserted children's. -/
theorem expandNode_statusOf_other (g : DagState) (pid : String) (ks : List PhaseNode)
    (now : Nat) (g' : DagState) (T : String) (hT : T ≠ pid)
    (hks : ∀ k ∈ ks, k.id ≠ T)
    (hok : expandNode g pid ks now = .ok g') :
    statusOf g' T = statusOf g T := by
  cases hP : getNode g pid with
  | none => rw [expandNode, hP] at hok; exact Except.noConfusion hok
  | some P =>
    obtain ⟨hPmem, hPid⟩ := getNode_eq_some g pid P hP
    have hpar_id : (expandedParent P ks now).id = pid := by
      rw [expandedParent_id, hPid]
    have hg2 : getNode (ks.foldl mapSet (setNode g pid (expandedParent P ks now))) T =
        getNode g T := by
      rw [getNode_foldl_mapSet_ne ks _ T hks,
        getNode_setNode_other g pid _ hpar_id T hT]
    cases hlast : ks.getLast? with
    | some agg =>
      have hids : ∀ m : PhaseNode,
          ((fun m => if m.id == pid then m else rewriteNode pid agg.id m) m).id = m.id := by
        intro m
        dsimp only
        split
        · rfl
        · exact rewriteNode_id _ _ m
      have he : expandNode g pid ks now =
          .ok ((ks.foldl mapSet (setNode g pid (expandedParent P ks now))).map
            (fun m => if m.id == pid then m else rewriteNode pid agg.id m)) := by
        rw [expandNode, hP]
        dsimp only
        rw [hlast]
        rfl
      rw [he, Except.ok.injEq] at hok
      subst hok
      simp only [statusOf]
      rw [getNode_map_of_id_preserved _ _ hids, hg2]
      cases getNode g T with
      | none => rfl
      | some m =>
        rw [Option.map_some', Option.map_some', Option.map_some']
        congr 1
        show (if (m.id == pid) = true then m else rewriteNode pid agg.id m).status = m.status
        split
        · rfl
        · rfl
    | none =>
      have he : expandNode g pid ks now =
          (if (ks.foldl mapSet (setNode g pid (expandedParent P ks now))).any
              (fun m => !(m.id == pid) && m.dependsOn.any (fun d => d == pid)) then
            .error ("TypeError: Cannot read properties of undefined (reading 'id')",
              ks.foldl mapSet (setNode g pid (expandedParent P ks now)))
          else .ok (ks.foldl mapSet (setNode g pid (expandedParent P ks now)))) := by
        rw [expandNode, hP]
        dsimp only
        rw [hlast]
        rfl
      rw [he] at hok
      split at hok
      · exact Except.noConfusion hok
      · rw [Except.ok.injEq] at hok
        subst hok
        simp only [statusOf]
        rw [hg2]

/-- A successful `expandNode` leaves the parent Running. -/
theorem expandNode_parent_running (g : DagState) (pid : String) (ks : List PhaseNode)
    (now : Nat) (g' : DagState) (hks : ∀ k ∈ ks, k.id ≠ pid)
    (hok : expandNode g pid ks now = .ok g') :
    statusOf g' pid = some PhaseStatus.running := by
  cases hP : getNode g pid with
  | none => rw [expandNode, hP] at hok; exact Except.noConfusion hok
  | some P =>
    obtain ⟨hPmem, hPid⟩ := getNode_eq_some g pid P hP
    have hpar_id : (expandedParent P ks now).id = pid := by
      rw [expandedParent_id, hPid]
    have hg2 : getNode (ks.foldl mapSet (setNode g pid (expandedParent P ks now))) pid =
        some (expandedParent P ks now) := by
      rw [getNode_foldl_mapSet_ne ks _ pid hks,
        getNode_setNode_self g pid _ hpar_id P hP]
    cases hlast : ks.getLast? with
    | some agg =>
      have hids : ∀ m : PhaseNode,
          ((fun m => if m.id == pid then m else rewriteNode pid agg.id m) m).id = m.id := by
        intro m
        dsimp only
        split
        · rfl
        · exact rewriteNode_id _ _ m
      have he : expandNode g pid ks now =
          .ok ((ks.foldl mapSet (setNode g pid (expandedParent P ks now))).map
            (fun m => if m.id == pid then m else rewriteNode pid agg.id m)) := by
        rw [expandNode, hP]
        dsimp only
        rw [hlast]
        rfl
      rw [he, Except.ok.injEq] at hok
      subst hok
      rw [statusOf, getNode_map_of_id_preserved _ _ hids, hg2,
        Option.map_some', Option.map_some']
      congr 1
      show (if ((expandedParent P ks now).id == pid) = true then expandedParent P ks now
          else rewriteNode pid agg.id (expandedParent P ks now)).status = PhaseStatus.running
      rw [if_pos (by simp [hpar_id])]
      rfl
    | none =>
      have he : expandNode g pid ks now =
          (if (ks.foldl mapSet (setNode g pid (expandedParent P ks now))).any
              (fun m => !(m.id == pid) && m.dependsOn.any (fun d => d == pid)) then
            .error ("TypeError: Cannot read properties of undefined (reading 'id')",
              ks.foldl mapSet (setNode g pid (expandedParent P ks now)))
          else .ok (ks.foldl mapSet (setNode g pid (expandedParent P ks now)))) := by
        rw [expandNode, hP]
        dsimp only
        rw [hlast]
        rfl
      rw [he] at hok
      split at hok
      · exact Except.noConfusion hok
      · rw [Except.ok.injEq] at hok
        subst hok
        rw [statusOf, hg2, Option.map_some']
        rfl

/-- Injectivity of a successful sweep result. -/
theorem okPairInj {E α β : Type} {a c : α} {b d : β}
    (h : (Except.ok (a, b) : Except E (α × β)) = Except.ok (c, d)) :
    a = c ∧ b = d := by
  rw [Except.ok.injEq, Prod.mk.injEq] at h
  exact h

/-- Invariant of the `maybeExpandDAG` sweep for the trigger target `T`
(`"collect"` or `"synthesize"`): either `T` has not been fired and its status
is still the initial `sT`, or it has been fired exactly once, firing found it
Pending, and it is now Running. -/
def fireInv (sT : Option PhaseStatus) (T : String) (g : DagState)
    (fired : List String) : Prop :=
  (fired.count T = 0 ∧ statusOf g T = sT) ∨
  (fired.count T = 1 ∧ statusOf g T = some PhaseStatus.running ∧
    sT = some PhaseStatus.pending)

/-- One firing of `expandNode` on target `P` preserves the invariant. -/
theorem fireInv_step (T P : String) (ks : List PhaseNode) (now : Nat)
    (g g' : DagState) (fired : List String) (sT : Option PhaseStatus)
    (hks : ∀ k ∈ ks, k.id ≠ T) (hkp : ∀ k ∈ ks, k.id ≠ P)
    (hok : expandNode g P ks now = .ok g')
    (hpend : statusOf g P = some PhaseStatus.pending)
    (hinv : fireInv sT T g fired) :
    fireInv sT T g' (fired ++ [P]) := by
  by_cases hTP : T = P
  · subst hTP
    rcases hinv with ⟨hc, hs⟩ | ⟨hc, hs, hsp⟩
    · right
      refine ⟨?_, expandNode_parent_running g T ks now g' hkp hok, ?_⟩
      · simp [List.count_append, hc]
      · rw [hs] at hpend
        exact hpend
    · rw [hs] at hpend
      exact absurd hpend (by decide)
  · have hstat := expandNode_statusOf_other g P ks now g' T hTP hks hok
    have h1 : List.count T [P] = 0 := List.count_eq_zero.mpr (by simp [hTP])
    have hcount : (fired ++ [P]).count T = fired.count T := by
      rw [List.count_append, h1]
      exact Nat.add_zero _
    rcases hinv with ⟨hc, hs⟩ | ⟨hc, hs, hsp⟩
    · exact Or.inl ⟨by rw [hcount, hc], by rw [hstat, hs]⟩
    · exact Or.inr ⟨by rw [hcount, hc], by rw [hstat, hs], hsp⟩

/-- One `expandTick` of the sweep preserves the invariant (for a target `T`
that is not among the generated child ids). -/
theorem expandTick_inv (mode : PipelineMode) (pc sc : List PhaseNode) (now : Nat)
    (g : DagState) (fired : List String) (nid : String)
    (g' : DagState) (fired' : List String)
    (T : String) (sT : Option PhaseStatus)
    (hpc : ∀ k ∈ pc, k.id ≠ T ∧ k.id ≠ "collect")
    (hsc : ∀ k ∈ sc, k.id ≠ T ∧ k.id ≠ "synthesize")
    (hok : expandTick mode pc sc now g fired nid = .ok (g', fired'))
    (hinv : fireInv sT T g fired) : fireInv sT T g' fired' := by
  rw [expandTick] at hok
  cases hn : getNode g nid with
  | none =>
    rw [hn] at hok
    dsimp only at hok
    obtain ⟨rfl, rfl⟩ := okPairInj hok
    exact hinv
  | some n =>
    rw [hn] at hok
    dsimp only at hok
    split at hok
    · split at hok
      · exact Except.noConfusion hok
      · next g1 fired1 heq =>
        have hinv1 : fireInv sT T g1 fired1 := by
          split at heq
          · split at heq
            · next cn hcn =>
              split at heq
              · next hpend =>
                split at heq
                · next g2 hexp =>
                  obtain ⟨rfl, rfl⟩ := okPairInj heq
                  refine fireInv_step T "collect" pc now g g2 fired sT
                    (fun k hk => (hpc k hk).1) (fun k hk => (hpc k hk).2) hexp ?_ hinv
                  rw [statusOf, hcn, Option.map_some', beq_iff_eq.mp hpend]
                · exact Except.noConfusion heq
              · obtain ⟨rfl, rfl⟩ := okPairInj heq
                exact hinv
            · obtain ⟨rfl, rfl⟩ := okPairInj heq
              exact hinv
          · obtain ⟨rfl, rfl⟩ := okPairInj heq
            exact hinv
        split at hok
        · split at hok
          · next sn hsn =>
            split at hok
            · next hpend =>
              split at hok
              · next g2 hexp =>
                obtain ⟨rfl, rfl⟩ := okPairInj hok
                refine fireInv_step T "synthesize" sc now g1 g2 fired1 sT
                  (fun k hk => (hsc k hk).1) (fun k hk => (hsc k hk).2) hexp ?_ hinv1
                rw [statusOf, hsn, Option.map_some', beq_iff_eq.mp hpend]
              · exact Except.noConfusion hok
            · obtain ⟨rfl, rfl⟩ := okPairInj hok
              exact hinv1
          · obtain ⟨rfl, rfl⟩ := okPairInj hok
            exact hinv1
        · obtain ⟨rfl, rfl⟩ := okPairInj hok
          exact hinv1
    · obtain ⟨rfl, rfl⟩ := okPairInj hok
      exact hinv

/-- The whole sweep preserves the invariant. -/
theorem expandSweep_inv (mode : PipelineMode) (pc sc : List PhaseNode) (now : Nat)
    (T : String) (sT : Option PhaseStatus)
    (hpc : ∀ k ∈ pc, k.id ≠ T ∧ k.id ≠ "collect")
    (hsc : ∀ k ∈ sc, k.id ≠ T ∧ k.id ≠ "synthesize") :
    ∀ (ids : List String) (g : DagState) (fired : List String)
      (g' : DagState) (fired' : List String),
      expandSweep mode pc sc now ids g fired = .ok (g', fired') →
      fireInv sT T g fired → fireInv sT T g' fired' := by
  intro ids
  induction ids with
  | nil =>
    intro g fired g' fired' hok hinv
    simp only [expandSweep] at hok
    obtain ⟨rfl, rfl⟩ := okPairInj hok
    exact hinv
  | cons nid rest ih =>
    intro g fired g' fired' hok hinv
    simp only [expandSweep] at hok
    split at hok
    · exact Except.noConfusion hok
    · next g2 fired2 heq =>
      exact ih g2 fired2 g' fired' hok
        (expandTick_inv mode pc sc now g fired nid g2 fired2 T sT hpc hsc heq hinv)

/-- The `design` trigger node, already Completed. -/
def c7design : PhaseNode := { id := "design", status := .completed }

/-- The Pending `collect` placeholder phase. -/
def c7collect : PhaseNode := { id := "collect", dependsOn := ["design"] }

/-- The persona nodes `maybeExpandDAG` inserts under `collect` (one child
suffices for the scenario). -/
def c7pc : List PhaseNode := [{ id := "collect/persona-001/context" }]

/-- Initial snapshot: `design` Completed, `collect` Pending. -/
def c7g0 : DagState := [c7design, c7collect]

/-- State after the first sweep (the first crash point: `collect` was expanded
and is Running, its children exist, nothing has been executed yet). -/
def c7g1 : DagState := sweepState (maybeExpandDAG .simulated c7pc [] 1 c7g0)

/-- The same snapshot as `resume` re-loads it: the `RUNNING → PENDING` reset
has been applied. -/
def c7g2 : DagState := resumeReset c7g1

/-- C7 counterexample: on the resumed snapshot the expected child of the
first expansion still exists and the trigger node `design` is still
Completed, yet the next `maybeExpandDAG` sweep fires the `collect` trigger —
and thus invokes `expandNode` on the parent `collect` — a second time: the
guard consulted is only the target's Pending status, which the resume reset
re-opened; no children-existence check exists. -/
theorem C7_counterexample :
    sweepFired (maybeExpandDAG .simulated c7pc [] 1 c7g0) = ["collect"] ∧
    statusOf c7g1 "collect" = some PhaseStatus.running ∧
    (getNode c7g1 "collect/persona-001/context").isSome = true ∧
    statusOf c7g2 "design" = some PhaseStatus.completed ∧
    statusOf c7g2 "collect" = some PhaseStatus.pending ∧
    (getNode c7g2 "collect/persona-001/context").isSome = true ∧
    sweepFired (maybeExpandDAG .simulated c7pc [] 2 c7g2) = ["collect"] := by
  decide

/-- C7 (amended): within a single `maybeExpandDAG` sweep each expansion
trigger target `T` (`"collect"` / `"synthesize"`) fires at most once, and the
only guard is the target's own Pending status: if the sweep returns normally
then `T` appears at most once in the fired list, `T` is never fired when its
status was not Pending on entry, and when `T` was fired it entered Pending
and leaves Running.  (Nothing checks whether expected children already
exist, and no per-run flag persists across `resume`: the `RUNNING → PENDING`
reset can re-open the guard, as `C7_counterexample` shows.) -/
theorem C7_expansion_guard (mode : PipelineMode) (pc sc : List PhaseNode)
    (now : Nat) (g g' : DagState) (fired : List String) (T : String)
    (hpc : ∀ k ∈ pc, k.id ≠ T ∧ k.id ≠ "collect")
    (hsc : ∀ k ∈ sc, k.id ≠ T ∧ k.id ≠ "synthesize")
    (hok : maybeExpandDAG mode pc sc now g = .ok (g', fired)) :
    fired.count T ≤ 1 ∧
    (statusOf g T ≠ some PhaseStatus.pending → T ∉ fired) ∧
    (T ∈ fired →
      statusOf g T = some PhaseStatus.pending ∧
      statusOf g' T = some PhaseStatus.running) := by
  have hinv0 : fireInv (statusOf g T) T g [] := Or.inl ⟨rfl, rfl⟩
  rw [maybeExpandDAG] at hok
  have hfin := expandSweep_inv mode pc sc now T (statusOf g T) hpc hsc
    (g.map (fun n => n.id)) g [] g' fired hok hinv0
  rcases hfin with ⟨hc, hs⟩ | ⟨hc, hs, hsp⟩
  · exact ⟨by omega, fun _ => List.count_eq_zero.mp hc,
      fun hm => absurd hm (List.count_eq_zero.mp hc)⟩
  · exact ⟨by omega, fun hne => absurd hsp hne, fun _ => ⟨hsp, hs⟩⟩

/-- Witness for the amended C7 at the counterexample's first sweep: the
`collect` trigger fires exactly once in that sweep, found `collect` Pending
and left it Running. -/
theorem C7_witness :
    (∀ k ∈ c7pc, k.id ≠ "collect" ∧ k.id ≠ "collect") ∧
    ((sweepFired (maybeExpandDAG .simulated c7pc [] 1 c7g0)).count "collect" ≤ 1 ∧
      (statusOf c7g0 "collect" ≠ some PhaseStatus.pending →
        "collect" ∉ sweepFired (maybeExpandDAG .simulated c7pc [] 1 c7g0)) ∧
      ("collect" ∈ sweepFired (maybeExpandDAG .simulated c7pc [] 1 c7g0) →
        statusOf c7g0 "collect" = some PhaseStatus.pending ∧
        statusOf (sweepState (maybeExpandDAG .simulated c7pc [] 1 c7g0)) "collect" =
          some PhaseStatus.running)) :=
  ⟨by decide,
    C7_expansion_guard .simulated c7pc [] 1 c7g0
      (sweepState (maybeExpandDAG .simulated c7pc [] 1 c7g0))
      (sweepFired (maybeExpandDAG .simulated c7pc [] 1 c7g0)) "collect"
      (by decide) (by decide) rfl⟩

end FSC
